import Mathlib

/-!
Verification development for the transaction memory pool
(`core/src/miner/mem_pool.rs`).

The pool state and every public operation of `MemPool` are embedded as
executable Lean definitions.  The helper types that `mem_pool.rs` uses but
whose sources are not part of the repository snapshot (`mem_pool_types.rs`:
`TransactionOrder`, the two priority queues, `Table`; and the backup codec)
are modelled from the specification; every such definition carries a doc
comment starting with `Modelled from the spec:`.  The backing key-value
store is external I/O and is omitted: every batched write mirrors an
in-memory mutation that the model performs directly.

Machine integers (`u64`, `usize`) are modelled as `Nat`; the pool never
relies on wrap-around (fees, sequences and sizes are far below `2^64` in
every reachable state, and the only subtractions, `saturating_sub` and the
height computations, are saturating, which is exactly `Nat` subtraction).
-/

namespace MemPoolModel

/-- Public keys are opaque identifiers; modelled as `Nat`. -/
abbrev Public := Nat

/-- Transaction hashes are opaque identifiers; modelled as `Nat`. -/
abbrev TxHash := Nat

/-- Modelled from the spec: origin of a transaction, `Local` or `External`
(§3); `Local` sorts before `External` in the order key. -/
inductive TxOrigin where
  | Local
  | External
deriving DecidableEq, Repr

/-- Mirrors `TxOrigin::is_local`. -/
def TxOrigin.is_local : TxOrigin → Bool
  | .Local => true
  | .External => false

/-- Mirrors `TxOrigin::is_external`. -/
def TxOrigin.is_external : TxOrigin → Bool
  | .Local => false
  | .External => true

/-- The payload of a transaction as far as the pool inspects it: sequence
number, fee and transferred quantity (the `Pay` action). -/
structure Transaction where
  seq : Nat
  fee : Nat
  quantity : Nat
deriving DecidableEq, Repr

/-- Mirrors `MemPoolItem::cost` (= fee + value transferred, §3): the
repository test `pay_transaction_increases_cost` fixes `cost = fee +
quantity`. -/
def Transaction.cost (t : Transaction) : Nat :=
  t.fee + t.quantity

/-- A verified transaction: payload plus the signer public key, the
transaction hash and the length of its serialized (`rlp`) encoding.  Hash
and encoding length are opaque to the pool, so they are carried as data. -/
structure VerifiedTransaction where
  tx : Transaction
  signer_public : Public
  hash : TxHash
  encoded_size : Nat
deriving DecidableEq, Repr

/-- Mirrors `AccountDetails`: the account oracle's answer. -/
structure AccountDetails where
  balance : Nat
  seq : Nat
deriving DecidableEq, Repr

/-- Mirrors `MemPoolItem`: an entry of `by_hash`. -/
structure MemPoolItem where
  tx : VerifiedTransaction
  origin : TxOrigin
  inserted_block_number : Nat
  inserted_timestamp : Nat
  insertion_id : Nat
deriving DecidableEq, Repr

def MemPoolItem.signer_public (i : MemPoolItem) : Public := i.tx.signer_public

def MemPoolItem.seq (i : MemPoolItem) : Nat := i.tx.tx.seq

def MemPoolItem.hash (i : MemPoolItem) : TxHash := i.tx.hash

def MemPoolItem.cost (i : MemPoolItem) : Nat := i.tx.tx.cost

/-- Mirrors `QueueTag` (§3): `New` is transient during admission. -/
inductive QueueTag where
  | Current
  | Future
  | New
deriving DecidableEq, Repr

/-- Modelled from the spec: the `OrderKey` / `TransactionOrder` of
`mem_pool_types.rs` (§3): (origin-is-local flag, height, fee, memory usage,
insertion id, hash). -/
structure TransactionOrder where
  seq_height : Nat
  fee : Nat
  mem_usage : Nat
  origin : TxOrigin
  insertion_id : Nat
  hash : TxHash
deriving DecidableEq, Repr

/-- Modelled from the spec: `TransactionOrder::for_transaction(item, seq)`:
the height is the distance of the entry's seq from the account seq snapshot
(§3, glossary: height = seq − first_seq_at_time_of_insertion). -/
def TransactionOrder.for_transaction (item : MemPoolItem) (base_seq : Nat) :
    TransactionOrder where
  seq_height := item.seq - base_seq
  fee := item.tx.tx.fee
  mem_usage := item.tx.encoded_size
  origin := item.origin
  insertion_id := item.insertion_id
  hash := item.hash

/-- Modelled from the spec: `TransactionOrder::update_height(seq, cur)`,
used by `update_orders` to re-base heights. -/
def TransactionOrder.update_height (o : TransactionOrder) (seq cur : Nat) :
    TransactionOrder :=
  { o with seq_height := seq - cur }

/-- Modelled from the spec: `TransactionOrder::change_origin`, used when a
signer becomes local. -/
def TransactionOrder.change_origin (o : TransactionOrder) (origin : TxOrigin) :
    TransactionOrder :=
  { o with origin := origin }

def TxOrigin.rank : TxOrigin → Nat
  | .Local => 0
  | .External => 1

/-- Modelled from the spec: the total order on order keys (§3): `Local`
before `External`; lower height first; higher fee first within a height;
smaller memory first; smaller insertion id first; hash last. -/
def TransactionOrder.cmp (a b : TransactionOrder) : Ordering :=
  (compare a.origin.rank b.origin.rank).then
    ((compare a.seq_height b.seq_height).then
      ((compare b.fee a.fee).then
        ((compare a.mem_usage b.mem_usage).then
          ((compare a.insertion_id b.insertion_id).then
            (compare a.hash b.hash)))))

/-- Mirrors `TransactionOrderWithTag`. -/
structure TransactionOrderWithTag where
  order : TransactionOrder
  tag : QueueTag
deriving DecidableEq, Repr

def TransactionOrderWithTag.new (order : TransactionOrder) (tag : QueueTag) :
    TransactionOrderWithTag :=
  ⟨order, tag⟩

/-! ### Association-list helpers

`HashMap`s of the source are modelled as association lists with unique
keys; the helpers below are keyed updates. -/

section AList

variable {α β : Type} [DecidableEq α]

/-- Keyed lookup in an association list. -/
def alGet : List (α × β) → α → Option β
  | [], _ => none
  | (k', v') :: t, k => if k = k' then some v' else alGet t k

/-- Keyed insert-or-replace in an association list. -/
def alSet : List (α × β) → α → β → List (α × β)
  | [], k, v => [(k, v)]
  | (k', v') :: t, k, v => if k = k' then (k, v) :: t else (k', v') :: alSet t k v

/-- Keyed removal in an association list (all occurrences of the key; on
the unique-key lists of the model this is exactly `HashMap::remove`). -/
def alErase : List (α × β) → α → List (α × β)
  | [], _ => []
  | (k', v') :: t, k => if k = k' then alErase t k else (k', v') :: alErase t k

@[simp] theorem alGet_nil (k : α) : alGet ([] : List (α × β)) k = none := rfl

theorem alGet_alSet_self (l : List (α × β)) (k : α) (v : β) :
    alGet (alSet l k v) k = some v := by
  induction l with
  | nil => simp [alGet, alSet]
  | cons h t ih =>
    by_cases hk : k = h.1 <;> simp [alGet, alSet, hk, ih]

theorem alGet_alSet_ne (l : List (α × β)) (k k' : α) (v : β) (h : k' ≠ k) :
    alGet (alSet l k v) k' = alGet l k' := by
  induction l with
  | nil => simp [alGet, alSet, h]
  | cons hd t ih =>
    by_cases hk : k = hd.1
    · subst hk
      simp [alGet, alSet, h]
    · by_cases hk' : k' = hd.1 <;> simp [alGet, alSet, hk, hk', ih]

theorem alGet_alErase_ne (l : List (α × β)) (k k' : α) (h : k' ≠ k) :
    alGet (alErase l k) k' = alGet l k' := by
  induction l with
  | nil => simp [alErase]
  | cons hd t ih =>
    by_cases hk : k = hd.1
    · subst hk
      simp [alGet, alErase, h, ih]
    · by_cases hk' : k' = hd.1 <;> simp [alGet, alErase, hk, hk', ih]

theorem alGet_alErase_self (l : List (α × β)) (k : α) :
    alGet (alErase l k) k = none := by
  induction l with
  | nil => simp [alErase]
  | cons hd t ih =>
    by_cases hk : k = hd.1
    · subst hk
      simp [alGet, alErase, ih]
    · simp [alGet, alErase, hk, ih]

end AList

/-- Smallest element of a list of naturals, `none` when empty. -/
def natMin? : List Nat → Option Nat
  | [] => none
  | x :: t =>
    match natMin? t with
    | none => some x
    | some m => some (min x m)

/-- Largest element of a list of naturals, `none` when empty; mirrors
`Iterator::max` on `Option<u64>`. -/
def natMax? : List Nat → Option Nat
  | [] => none
  | x :: t =>
    match natMax? t with
    | none => some x
    | some m => some (max x m)

/-! ### Priority queue -/

/-- Modelled from the spec: sorted insertion into the ordered set of order
keys (`BTreeSet<TransactionOrder>`, §4.1); inserting a key that compares
equal (hence is equal, the comparison inspects every field) is a no-op. -/
def insertOrder : List TransactionOrder → TransactionOrder → List TransactionOrder
  | [], o => [o]
  | h :: t, o =>
    match TransactionOrder.cmp o h with
    | .lt => o :: h :: t
    | .eq => h :: t
    | .gt => h :: insertOrder t o

/-- Modelled from the spec: bump the fee histogram bucket for `fee` (§4.1). -/
def bump_fee : List (Nat × Nat) → Nat → List (Nat × Nat)
  | [], fee => [(fee, 1)]
  | (f, c) :: t, fee => if fee = f then (f, c + 1) :: t else (f, c) :: bump_fee t fee

/-- Modelled from the spec: decrement the fee histogram bucket for `fee`,
removing the bucket when it reaches zero (§4.1). -/
def drop_fee : List (Nat × Nat) → Nat → List (Nat × Nat)
  | [], _ => []
  | (f, c) :: t, fee =>
    if fee = f then (if c ≤ 1 then t else (f, c - 1) :: t) else (f, c) :: drop_fee t fee

/-- Modelled from the spec: a priority queue (`CurrentQueue`/`FutureQueue`,
§4.1): ordered set of order keys plus aggregate count, memory usage and
per-fee histogram. -/
structure TxQueue where
  queue : List TransactionOrder
  count : Nat
  mem_usage : Nat
  fee_counter : List (Nat × Nat)
deriving DecidableEq, Repr

/-- Modelled from the spec: a fresh empty queue. -/
def TxQueue.new : TxQueue :=
  ⟨[], 0, 0, []⟩

/-- Modelled from the spec: queue insertion updates the set, the count, the
memory aggregate and the fee histogram (§4.1). -/
def TxQueue.insert (q : TxQueue) (o : TransactionOrder) : TxQueue :=
  if o ∈ q.queue then q
  else
    { queue := insertOrder q.queue o
      count := q.count + 1
      mem_usage := q.mem_usage + o.mem_usage
      fee_counter := bump_fee q.fee_counter o.fee }

/-- Modelled from the spec: queue removal updates the set, the count, the
memory aggregate and the fee histogram (§4.1). -/
def TxQueue.remove (q : TxQueue) (o : TransactionOrder) : TxQueue :=
  if o ∈ q.queue then
    { queue := q.queue.erase o
      count := q.count - 1
      mem_usage := q.mem_usage - o.mem_usage
      fee_counter := drop_fee q.fee_counter o.fee }
  else q

/-- Modelled from the spec: `clear` empties the queue and its aggregates. -/
def TxQueue.clear (_q : TxQueue) : TxQueue :=
  TxQueue.new

/-- Mirrors `len()`: the count aggregate. -/
def TxQueue.len (q : TxQueue) : Nat := q.count

/-- Modelled from the spec: `minimum_fee` returns the smallest key of the
fee histogram plus one (§4.1); it is undefined on an empty histogram, which
the model renders as `0`. -/
def TxQueue.minimum_fee (q : TxQueue) : Nat :=
  match natMin? (q.fee_counter.map Prod.fst) with
  | some m => m + 1
  | none => 0

/-! ### Signer index (`Table`) -/

/-- Modelled from the spec: the `SignerIndex` (`Table<Public, u64,
TransactionOrderWithTag>`, §4.2): a two-level map public-key → sequence →
tagged order, as nested association lists. -/
structure SignerTable where
  rows : List (Public × List (Nat × TransactionOrderWithTag))
deriving DecidableEq, Repr

def SignerTable.empty : SignerTable := ⟨[]⟩

/-- Modelled from the spec: `row(signer)`. -/
def SignerTable.row (t : SignerTable) (p : Public) :
    Option (List (Nat × TransactionOrderWithTag)) :=
  alGet t.rows p

/-- Modelled from the spec: `get(signer, seq)`. -/
def SignerTable.get (t : SignerTable) (p : Public) (s : Nat) :
    Option TransactionOrderWithTag :=
  (alGet t.rows p).bind fun row => alGet row s

/-- Modelled from the spec: `insert(signer, seq, tagged)`, returning any
prior tagged order at that slot together with the updated table (§4.2). -/
def SignerTable.insert (t : SignerTable) (p : Public) (s : Nat)
    (v : TransactionOrderWithTag) : Option TransactionOrderWithTag × SignerTable :=
  match alGet t.rows p with
  | none => (none, ⟨alSet t.rows p [(s, v)]⟩)
  | some row => (alGet row s, ⟨alSet t.rows p (alSet row s v)⟩)

/-- Modelled from the spec: `remove(signer, seq)` (the slot only; an empty
row is left in place for `clear_if_empty`). -/
def SignerTable.remove (t : SignerTable) (p : Public) (s : Nat) : SignerTable :=
  match alGet t.rows p with
  | none => t
  | some row => ⟨alSet t.rows p (alErase row s)⟩

/-- Modelled from the spec: `keys()`: the signers with a row. -/
def SignerTable.keys (t : SignerTable) : List Public :=
  t.rows.map Prod.fst

/-- Modelled from the spec: `len()`: total number of (signer, seq) entries
across all rows (§4.2). -/
def SignerTable.len (t : SignerTable) : Nat :=
  (t.rows.map fun r => r.2.length).sum

/-- Modelled from the spec: `clear_if_empty(signer)` removes the signer's
row if it has no entries and reports whether it did (§4.2). -/
def SignerTable.clear_if_empty (t : SignerTable) (p : Public) : Bool × SignerTable :=
  match alGet t.rows p with
  | some [] => (true, ⟨alErase t.rows p⟩)
  | _ => (false, t)

/-! ### MemPool state -/

/-- Mirrors the error taxonomy (§7) as far as `mem_pool.rs` produces it. -/
inductive MemPoolErr where
  | insufficientFee (minimal got : Nat)
  | insufficientBalance (pubkey : Public) (cost balance : Nat)
  | transactionAlreadyImported
  | old
  | tooCheapToReplace
  | limitReached
deriving DecidableEq, Repr

/-- Mirrors `TransactionImportResult`. -/
inductive TransactionImportResult where
  | Current
  | Future
deriving DecidableEq, Repr

/-- One element of `add`'s result vector (`Result<TransactionImportResult,
Error>`). -/
inductive TxResult where
  | ok (r : TransactionImportResult)
  | err (e : MemPoolErr)
deriving DecidableEq, Repr

/-- Mirrors `MemPoolInput`. -/
structure MemPoolInput where
  transaction : VerifiedTransaction
  origin : TxOrigin
deriving DecidableEq, Repr

/-- Mirrors the `MemPool` struct.  The `db` handle is external and omitted;
backup writes mirror in-memory mutations (§4.3). -/
structure MemPool where
  fee_bump_shift : Nat
  max_block_number_period_in_pool : Nat
  current : TxQueue
  future : TxQueue
  by_signer_public : SignerTable
  queue_count_limit : Nat
  queue_memory_limit : Nat
  by_hash : List (TxHash × MemPoolItem)
  first_seqs : List (Public × Nat)
  next_seqs : List (Public × Nat)
  is_local_account : List Public
  last_block_number : Nat
  last_timestamp : Nat
  next_transaction_id : Nat
deriving DecidableEq, Repr

/-- Mirrors `MemPool::with_limits` (`DEFAULT_POOLING_PERIOD = 128`). -/
def MemPool.with_limits (limit memory_limit fee_bump_shift : Nat) : MemPool where
  fee_bump_shift := fee_bump_shift
  max_block_number_period_in_pool := 128
  current := TxQueue.new
  future := TxQueue.new
  by_signer_public := SignerTable.empty
  queue_count_limit := limit
  queue_memory_limit := memory_limit
  by_hash := []
  first_seqs := []
  next_seqs := []
  is_local_account := []
  last_block_number := 0
  last_timestamp := 0
  next_transaction_id := 0

/-- Mirrors `MemPool::effective_minimum_fee`: one more than the lowest fee
in `current` iff the pool is count-full, otherwise 0. -/
def MemPool.effective_minimum_fee (p : MemPool) : Nat :=
  if p.current.len ≥ p.queue_count_limit then p.current.minimum_fee else 0

/-- Mirrors `MemPool::verify_transaction`; `none` is success, `some e` the
per-input error. -/
def MemPool.verify_transaction (p : MemPool) (tx : VerifiedTransaction)
    (origin : TxOrigin) (client_account : AccountDetails) : Option MemPoolErr :=
  let full_pools_lowest := p.effective_minimum_fee
  if origin ≠ TxOrigin.Local ∧ tx.tx.fee < full_pools_lowest then
    some (.insufficientFee full_pools_lowest tx.tx.fee)
  else if client_account.balance < tx.tx.fee then
    some (.insufficientBalance tx.signer_public tx.tx.fee client_account.balance)
  else if (alGet p.by_hash tx.hash).isSome then
    some .transactionAlreadyImported
  else if tx.tx.seq < client_account.seq then
    some .old
  else if origin ≠ TxOrigin.Local then
    match p.by_signer_public.get tx.signer_public tx.tx.seq with
    | some owt =>
      let old_fee := owt.order.fee
      let new_fee := tx.tx.fee
      let min_required_fee := old_fee + (old_fee >>> p.fee_bump_shift)
      if new_fee < min_required_fee then some .tooCheapToReplace else none
    | none => none
  else none

/-! ### `enforce_limit` -/

/-- Mirrors the body of `get_orders_to_drop`: scan the ordered set in its
iteration order, accumulating a running count and running memory, and keep
every entry that is not local and whose running memory exceeds the memory
limit or whose running count exceeds the count limit. -/
def get_orders_to_drop_go (limit memory_limit : Nat) :
    Nat → Nat → List TransactionOrder → List TransactionOrder
  | _, _, [] => []
  | count, mem_usage, o :: t =>
    let count' := count + 1
    let mem_usage' := mem_usage + o.mem_usage
    if ¬o.origin.is_local ∧ (mem_usage' > memory_limit ∨ count' > limit) then
      o :: get_orders_to_drop_go limit memory_limit count' mem_usage' t
    else
      get_orders_to_drop_go limit memory_limit count' mem_usage' t

/-- Mirrors `get_orders_to_drop` in `MemPool::enforce_limit`. -/
def get_orders_to_drop (set : List TransactionOrder) (limit memory_limit : Nat) :
    List TransactionOrder :=
  get_orders_to_drop_go limit memory_limit 0 0 set

/-- The orders `enforce_limit` drops from `current` (the source's
`to_drop_current` binding, including its gate). -/
def MemPool.to_drop_current (p : MemPool) : List TransactionOrder :=
  if p.current.mem_usage > p.queue_memory_limit ∨ p.current.count > p.queue_count_limit then
    get_orders_to_drop p.current.queue p.queue_count_limit p.queue_memory_limit
  else []

/-- The orders `enforce_limit` drops from `future` (the source's
`to_drop_future` binding, including its gate). -/
def MemPool.to_drop_future (p : MemPool) : List TransactionOrder :=
  if p.future.mem_usage > p.queue_memory_limit ∨ p.future.count > p.queue_count_limit then
    get_orders_to_drop p.future.queue p.queue_count_limit p.queue_memory_limit
  else []

/-- Mirrors one iteration of `enforce_limit`'s removal loop: drop the order
from `by_hash`, the signer index (clearing the row and the local-account
flag if now empty) and its queue. -/
def MemPool.drop_one (p : MemPool) (d : TransactionOrder × Bool) : MemPool :=
  let order := d.1
  let is_current := d.2
  let hash := order.hash
  let p1 :=
    match alGet p.by_hash hash with
    | some item =>
      let signer_public := item.signer_public
      let seq := item.seq
      let t := (p.by_signer_public.remove signer_public seq)
      let (cleared, t') := t.clear_if_empty signer_public
      { p with
        by_hash := alErase p.by_hash hash
        by_signer_public := t'
        is_local_account :=
          if cleared then p.is_local_account.erase signer_public
          else p.is_local_account }
    | none => { p with by_hash := alErase p.by_hash hash }
  if is_current then { p1 with current := p1.current.remove order }
  else { p1 with future := p1.future.remove order }

/-- Mirrors `MemPool::enforce_limit`. -/
def MemPool.enforce_limit (p : MemPool) : MemPool :=
  let drops :=
    (p.to_drop_current.map fun o => (o, true)) ++ (p.to_drop_future.map fun o => (o, false))
  drops.foldl MemPool.drop_one p

/-! ### Per-signer reconciliation helpers -/

/-- Mirrors `MemPool::next_seq_of_queued`: the smallest sequence at or
above `start_seq` absent from the signer's row.  The source searches an
open-ended range; by pigeonhole the gap lies within `row.length + 1` steps,
which bounds the search here (the fallback branch is unreachable). -/
def MemPool.next_seq_of_queued (p : MemPool) (public : Public) (start_seq : Nat) : Nat :=
  let row := (p.by_signer_public.row public).getD []
  match (List.range (row.length + 1)).find? (fun i => (alGet row (start_seq + i)).isNone) with
  | some i => start_seq + i
  | none => start_seq + row.length + 1

/-- Mirrors one step of `MemPool::move_queue`: move the entry at `(public,
s)` to queue `dest` (the source `to`) if it is in the other concrete queue. -/
def MemPool.move_one (p : MemPool) (public : Public) (s : Nat) (dest : QueueTag) : MemPool :=
  match p.by_signer_public.get public s with
  | none => p
  | some owt =>
    match owt.tag, dest with
    | .Current, .Future =>
      let order := owt.order
      { p with
        by_signer_public := (p.by_signer_public.insert public s ⟨order, .Future⟩).2
        current := p.current.remove order
        future := p.future.insert order }
    | .Future, .Current =>
      let order := owt.order
      { p with
        by_signer_public := (p.by_signer_public.insert public s ⟨order, .Current⟩).2
        future := p.future.remove order
        current := p.current.insert order }
    | _, _ => p

/-- Mirrors `MemPool::move_queue`: move the sequences in `[start_seq,
end_seq)` present in the row to the queue `dest` (the source `to`). -/
def MemPool.move_queue (p : MemPool) (public : Public) (start_seq end_seq : Nat)
    (dest : QueueTag) : MemPool :=
  (List.range' start_seq (end_seq - start_seq)).foldl
    (fun p s => p.move_one public s dest) p

/-- Mirrors one step of `MemPool::add_new_orders_to_queue`: finalize a
`New`-tagged entry into `Current` or `Future` by the boundary. -/
def MemPool.add_new_one (p : MemPool) (public : Public) (new_next_seq : Nat)
    (seq : Nat) : MemPool :=
  match p.by_signer_public.get public seq with
  | some owt =>
    match owt.tag with
    | .New =>
      let order := owt.order
      if seq < new_next_seq then
        { p with
          by_signer_public := (p.by_signer_public.insert public seq ⟨order, .Current⟩).2
          current := p.current.insert order }
      else
        { p with
          by_signer_public := (p.by_signer_public.insert public seq ⟨order, .Future⟩).2
          future := p.future.insert order }
    | _ => p
  | none => p

/-- Mirrors `MemPool::add_new_orders_to_queue`. -/
def MemPool.add_new_orders_to_queue (p : MemPool) (public : Public)
    (seq_list : List Nat) (new_next_seq : Nat) : MemPool :=
  seq_list.foldl (fun p seq => p.add_new_one public new_next_seq seq) p

/-- Shared tail of one `update_orders` iteration, after the old order was
removed from its queue: drop the entry when stale, otherwise re-key it with
the new height (and origin) and re-insert by the boundary. -/
def MemPool.update_one_core (p : MemPool) (public : Public)
    (current_seq new_next_seq : Nat) (to_local : Bool) (seq : Nat)
    (old_order : TransactionOrder) : MemPool :=
  let p := { p with by_signer_public := p.by_signer_public.remove public seq }
  if seq < current_seq then
    { p with by_hash := alErase p.by_hash old_order.hash }
  else
    let new_order0 := old_order.update_height seq current_seq
    let new_order := if to_local then new_order0.change_origin .Local else new_order0
    if seq < new_next_seq then
      { p with
        by_signer_public := (p.by_signer_public.insert public seq ⟨new_order, .Current⟩).2
        current := p.current.insert new_order }
    else
      { p with
        by_signer_public := (p.by_signer_public.insert public seq ⟨new_order, .Future⟩).2
        future := p.future.insert new_order }

/-- Mirrors one iteration of `MemPool::update_orders` (a `New`-tagged entry
is skipped, as in the source's `continue`). -/
def MemPool.update_one (p : MemPool) (public : Public)
    (current_seq new_next_seq : Nat) (to_local : Bool) (seq : Nat) : MemPool :=
  match p.by_signer_public.get public seq with
  | none => p
  | some owt =>
    match owt.tag with
    | .New => p
    | .Current =>
      MemPool.update_one_core { p with current := p.current.remove owt.order }
        public current_seq new_next_seq to_local seq owt.order
    | .Future =>
      MemPool.update_one_core { p with future := p.future.remove owt.order }
        public current_seq new_next_seq to_local seq owt.order

/-- Mirrors `MemPool::update_orders`. -/
def MemPool.update_orders (p : MemPool) (public : Public)
    (current_seq new_next_seq : Nat) (to_local : Bool) : MemPool :=
  let seqs := ((p.by_signer_public.row public).getD []).map Prod.fst
  seqs.foldl (fun p seq => p.update_one public current_seq new_next_seq to_local seq) p

/-! ### `add` -/

/-- Intermediate per-input result of `add` before final tags are read. -/
inductive PendingRes where
  | ok (signer : Public) (seq : Nat)
  | err (e : MemPoolErr)
deriving DecidableEq, Repr

/-- State threaded through `add`'s input loop. -/
structure AddSt where
  pool : MemPool
  results : List PendingRes
  to_insert : List (Public × List Nat)
  new_local_accounts : List Public
deriving Repr

/-- Mirrors one iteration of `add`'s input loop: compute the effective
origin (local stickiness), verify, then record the item in `by_hash` and
the signer index, displacing any prior order at the same (signer, seq). -/
def MemPool.add_input (fetch_account : Public → AccountDetails)
    (inserted_block_number inserted_timestamp : Nat) (st : AddSt)
    (input : MemPoolInput) : AddSt :=
  let tx := input.transaction
  let signer_public := tx.signer_public
  let seq := tx.tx.seq
  let hash := tx.hash
  let p := st.pool
  let (origin, p, new_locals) :=
    if input.origin.is_local ∧ signer_public ∉ p.is_local_account then
      (TxOrigin.Local, { p with is_local_account := signer_public :: p.is_local_account },
        signer_public :: st.new_local_accounts)
    else if input.origin.is_external ∧ signer_public ∈ p.is_local_account then
      (TxOrigin.Local, p, st.new_local_accounts)
    else (input.origin, p, st.new_local_accounts)
  let client_account := fetch_account signer_public
  match p.verify_transaction tx origin client_account with
  | some e =>
    { st with
      pool := p
      new_local_accounts := new_locals
      results := st.results ++ [.err e] }
  | none =>
    let id := p.next_transaction_id
    let p := { p with next_transaction_id := id + 1 }
    let item : MemPoolItem :=
      ⟨tx, origin, inserted_block_number, inserted_timestamp, id⟩
    let order := TransactionOrder.for_transaction item client_account.seq
    let order_with_tag := TransactionOrderWithTag.new order .New
    let p := { p with by_hash := alSet p.by_hash hash item }
    let (old, t') := p.by_signer_public.insert signer_public seq order_with_tag
    let p := { p with by_signer_public := t' }
    let p :=
      match old with
      | some old_order_with_tag =>
        let old_order := old_order_with_tag.order
        let p := { p with by_hash := alErase p.by_hash old_order.hash }
        match old_order_with_tag.tag with
        | .Current => { p with current := p.current.remove old_order }
        | .Future => { p with future := p.future.remove old_order }
        | .New => p
      | none => p
    let to_insert :=
      match alGet st.to_insert signer_public with
      | some l => alSet st.to_insert signer_public (l ++ [seq])
      | none => alSet st.to_insert signer_public [seq]
    { pool := p
      results := st.results ++ [.ok signer_public seq]
      to_insert := to_insert
      new_local_accounts := new_locals }

/-- Mirrors one iteration of `add`'s per-signer reconciliation loop
(§4.4 steps 4–10). -/
def MemPool.reconcile_add (fetch_account : Public → AccountDetails)
    (inserted_block_number inserted_timestamp : Nat)
    (to_insert : List (Public × List Nat)) (new_local_accounts : List Public)
    (p : MemPool) (public : Public) : MemPool :=
  let current_seq := (fetch_account public).seq
  let first_seq0 := (alGet p.first_seqs public).getD 0
  let next_seq := (alGet p.next_seqs public).getD current_seq
  let target_seq :=
    if current_seq < first_seq0 ∨ inserted_block_number < p.last_block_number
        ∨ inserted_timestamp < p.last_timestamp ∨ next_seq < current_seq then
      current_seq
    else next_seq
  let new_next_seq := p.next_seq_of_queued public target_seq
  let is_this_account_local := public ∈ new_local_accounts
  let (p1, first_seq) :=
    if current_seq ≠ first_seq0 ∨ is_this_account_local then
      let q := p.update_orders public current_seq new_next_seq is_this_account_local
      ({ q with first_seqs := alSet q.first_seqs public current_seq }, current_seq)
    else if new_next_seq < next_seq then
      (p.move_queue public new_next_seq next_seq .Future, first_seq0)
    else if new_next_seq > next_seq then
      (p.move_queue public next_seq new_next_seq .Current, first_seq0)
    else (p, first_seq0)
  let p2 :=
    if new_next_seq ≤ first_seq then
      { p1 with next_seqs := alErase p1.next_seqs public }
    else
      { p1 with next_seqs := alSet p1.next_seqs public new_next_seq }
  let p3 :=
    match alGet to_insert public with
    | some seq_list => p2.add_new_orders_to_queue public seq_list new_next_seq
    | none => p2
  let (cleared, t') := p3.by_signer_public.clear_if_empty public
  if cleared then
    { p3 with
      by_signer_public := t'
      is_local_account := p3.is_local_account.erase public }
  else { p3 with by_signer_public := t' }

/-- Mirrors the final mapping of `add`'s result vector: look up the final
tag of each accepted input; a vanished entry was evicted by `enforce_limit`
and reports `LimitReached`.  The `New` tag is unreachable there. -/
def MemPool.finalize_results (p : MemPool) (results : List PendingRes) :
    List TxResult :=
  results.map fun r =>
    match r with
    | .ok signer_public seq =>
      match p.by_signer_public.get signer_public seq with
      | some order_with_tag =>
        match order_with_tag.tag with
        | .Current => .ok .Current
        | .Future => .ok .Future
        | .New => .ok .Current
      | none => .err .limitReached
    | .err e => .err e

/-- Mirrors `MemPool::add`: returns the pool after the call and the result
vector, in input order. -/
def MemPool.add (p : MemPool) (inputs : List MemPoolInput)
    (inserted_block_number inserted_timestamp : Nat)
    (fetch_account : Public → AccountDetails) : MemPool × List TxResult :=
  let st0 : AddSt := ⟨p, [], [], []⟩
  let st :=
    inputs.foldl
      (MemPool.add_input fetch_account inserted_block_number inserted_timestamp) st0
  let keys := st.pool.by_signer_public.keys
  let p1 :=
    keys.foldl
      (MemPool.reconcile_add fetch_account inserted_block_number inserted_timestamp
        st.to_insert st.new_local_accounts)
      st.pool
  let p2 := p1.enforce_limit
  let p3 := { p2 with
    last_block_number := inserted_block_number
    last_timestamp := inserted_timestamp }
  (p3, p3.finalize_results st.results)

/-! ### `remove_all`, `remove`, `remove_old` -/

/-- Mirrors `MemPool::remove_all`: clears `current` and `future` — and
nothing else. -/
def MemPool.remove_all (p : MemPool) : MemPool :=
  { p with current := p.current.clear, future := p.future.clear }

/-- Mirrors one iteration of `remove`'s hash loop: drop the entry from its
queue, `by_hash` and the signer index, and track per signer the lowest
removed sequence at or above the signer's current account seq. -/
def MemPool.remove_hash (fetch_seq : Public → Nat)
    (st : MemPool × List (Public × Nat)) (hash : TxHash) :
    MemPool × List (Public × Nat) :=
  let (p, removed) := st
  match alGet p.by_hash hash with
  | none => st
  | some item =>
    let signer_public := item.signer_public
    let seq := item.seq
    let current_seq := fetch_seq signer_public
    let p :=
      match p.by_signer_public.get signer_public seq with
      | some owt =>
        match owt.tag with
        | .Current => { p with current := p.current.remove owt.order }
        | .Future => { p with future := p.future.remove owt.order }
        | .New => p
      | none => p
    let p := { p with
      by_hash := alErase p.by_hash hash
      by_signer_public := p.by_signer_public.remove signer_public seq }
    let removed :=
      if current_seq ≤ seq then
        match alGet removed signer_public with
        | some old_seq => if old_seq ≤ seq then removed else alSet removed signer_public seq
        | none => alSet removed signer_public seq
      else removed
    (p, removed)

/-- The hash-removal phase of `MemPool::remove`: the pool after all listed
hashes are dropped, together with the per-signer removed-seq map. -/
def MemPool.remove_phase1 (p : MemPool) (transaction_hashes : List TxHash)
    (fetch_seq : Public → Nat) : MemPool × List (Public × Nat) :=
  transaction_hashes.foldl (MemPool.remove_hash fetch_seq) (p, [])

/-- Mirrors one iteration of `remove`'s per-signer reconciliation loop. -/
def MemPool.reconcile_remove (fetch_seq : Public → Nat)
    (current_block_number current_timestamp : Nat)
    (removed : List (Public × Nat)) (p : MemPool) (public : Public) : MemPool :=
  let current_seq := fetch_seq public
  let first_seq0 := (alGet p.first_seqs public).getD 0
  let next_seq := (alGet p.next_seqs public).getD current_seq
  let new_next_seq :=
    if current_seq < first_seq0 ∨ current_block_number < p.last_block_number
        ∨ current_timestamp < p.last_timestamp ∨ next_seq < current_seq then
      p.next_seq_of_queued public current_seq
    else
      match alGet removed public with
      | some seq => seq
      | none => p.next_seq_of_queued public next_seq
  let p1 :=
    if current_seq ≠ first_seq0 then
      let q := p.update_orders public current_seq new_next_seq false
      { q with first_seqs := alSet q.first_seqs public current_seq }
    else if new_next_seq < next_seq then
      p.move_queue public new_next_seq next_seq .Future
    else if new_next_seq > next_seq then
      p.move_queue public next_seq new_next_seq .Current
    else p
  let first_seq := if current_seq ≠ first_seq0 then current_seq else first_seq0
  let p2 :=
    if new_next_seq ≤ first_seq then
      { p1 with next_seqs := alErase p1.next_seqs public }
    else
      { p1 with next_seqs := alSet p1.next_seqs public new_next_seq }
  let cl := p2.by_signer_public.clear_if_empty public
  if cl.1 then
    { p2 with
      by_signer_public := cl.2
      is_local_account := p2.is_local_account.erase public }
  else { p2 with by_signer_public := cl.2 }

/-- Mirrors `MemPool::remove`. -/
def MemPool.remove (p : MemPool) (transaction_hashes : List TxHash)
    (fetch_seq : Public → Nat)
    (current_block_number current_timestamp : Nat) : MemPool :=
  let st := p.remove_phase1 transaction_hashes fetch_seq
  let p2 :=
    (st.1.by_signer_public.keys).foldl
      (MemPool.reconcile_remove fetch_seq current_block_number current_timestamp st.2)
      st.1
  { p2 with
    last_block_number := current_block_number
    last_timestamp := current_timestamp }

/-- The selection phase of `MemPool::remove_old`: the hashes of the
non-local entries that stayed past `max_block_number_period_in_pool`, or
past an eighth of it with the signer's balance now below the entry's cost.
The source looks balances up in a map built over the signer index's keys;
`fetch_account` replays that map. -/
def MemPool.remove_old_invalid (p : MemPool)
    (fetch_account : Public → AccountDetails) (current_block_number : Nat) :
    List TxHash :=
  let keys := p.by_signer_public.keys
  let max_block_number := p.max_block_number_period_in_pool
  let balance_check := max_block_number >>> 3
  p.by_hash.filterMap fun pr =>
    let item := pr.2
    if item.origin.is_local then none
    else
      let time_diff := current_block_number - item.inserted_block_number
      if time_diff > max_block_number then some pr.1
      else if time_diff > balance_check then
        if item.signer_public ∈ keys
            ∧ item.cost > (fetch_account item.signer_public).balance then
          some pr.1
        else none
      else none

/-- Mirrors `MemPool::remove_old`. -/
def MemPool.remove_old (p : MemPool) (fetch_account : Public → AccountDetails)
    (current_block_number current_timestamp : Nat) : MemPool :=
  let invalid := p.remove_old_invalid fetch_account current_block_number
  p.remove invalid (fun a => (fetch_account a).seq) current_block_number
    current_timestamp

/-! ### Queries and invariants -/

/-- The items of `current` in iteration order whose inserted timestamp lies
in `[lo, hi)` (the `Range<u64>` filter of `top_transactions`); an order
whose hash misses `by_hash` (impossible in a synced pool, a panic in the
source) is skipped. -/
def MemPool.pending_items_in_range (p : MemPool) (lo hi : Nat) :
    List MemPoolItem :=
  (p.current.queue.filterMap fun t => alGet p.by_hash t.hash).filter
    fun t => lo ≤ t.inserted_timestamp ∧ t.inserted_timestamp < hi

/-- Mirrors `top_transactions`' `take_while`: the running size includes the
entry under test, and the entry is kept only while the running size stays
strictly below the limit. -/
def take_while_size (size_limit : Nat) :
    Nat → List MemPoolItem → List MemPoolItem
  | _, [] => []
  | current_size, t :: ts =>
    let current_size' := current_size + t.tx.encoded_size
    if current_size' < size_limit then
      t :: take_while_size size_limit current_size' ts
    else []

/-- Mirrors `MemPool::top_transactions`: the prioritized prefix of
`current` in the timestamp range under the size budget, and the maximum
inserted timestamp over the included entries. -/
def MemPool.top_transactions (p : MemPool) (size_limit : Nat) (lo hi : Nat) :
    List VerifiedTransaction × Option Nat :=
  let pending_items := take_while_size size_limit 0 (p.pending_items_in_range lo hi)
  (pending_items.map fun t => t.tx,
    natMax? (pending_items.map fun t => t.inserted_timestamp))

/-- The three cross-index assertions at the end of `add` and `remove`:
`|current| + |future| = |by_hash|`, the per-fee histogram of `current` sums
to `|current|`, and `|SignerIndex| = |by_hash|`. -/
def MemPool.check_invariants (p : MemPool) : Bool :=
  (p.current.len + p.future.len == p.by_hash.length)
    && ((p.current.fee_counter.map Prod.snd).sum == p.current.len)
    && (p.by_signer_public.len == p.by_hash.length)

/-- The boundary between `current` and `future` for a signer:
`next_seq[signer]`, defaulting to `first_seq[signer]` when absent (§3). -/
def MemPool.boundary (p : MemPool) (public : Public) : Nat :=
  match alGet p.next_seqs public with
  | some n => n
  | none => (alGet p.first_seqs public).getD 0

/-! ### Concrete fixtures used by witnesses, counterexamples and the
scenario claims -/

/-- A verified transaction literal. -/
def mkTx (signer seq fee quantity hash encoded_size : Nat) : VerifiedTransaction :=
  ⟨⟨seq, fee, quantity⟩, signer, hash, encoded_size⟩

/-- An oracle with a large balance and account seq 0 for every signer. -/
def acct_rich : Public → AccountDetails := fun _ => ⟨1000000000000, 0⟩

/-- The empty pool of the gap-demotion scenario (`count_limit = 8192`,
large memory limit, `fee_bump_shift = 3`, as in the repository test). -/
def pool0 : MemPool := MemPool.with_limits 8192 1000000000 3

/-- The three inputs of the gap-demotion scenario: signer 0, seqs 0, 1, 2,
fee 100 (hashes 1, 2, 3). -/
def inputs_gap : List MemPoolInput :=
  [⟨mkTx 0 0 100 0 1 10, .Local⟩, ⟨mkTx 0 1 100 0 2 10, .Local⟩,
    ⟨mkTx 0 2 100 0 3 10, .Local⟩]

/-- The gap-demotion scenario after `add`. -/
def gap_added : MemPool × List TxResult := pool0.add inputs_gap 1 100 acct_rich

/-- The gap-demotion scenario after removing the hash of the seq-1 entry. -/
def gap_removed : MemPool :=
  gap_added.1.remove [2] (fun _ => 0) 2 200

/-- A single local input (signer 0, seq 0, fee 100, hash 1). -/
def input_one : MemPoolInput := ⟨mkTx 0 0 100 0 1 10, .Local⟩

/-- A pool holding exactly that input. -/
def pool_one : MemPool × List TxResult := pool0.add [input_one] 1 100 acct_rich

/-- Re-adding the same input after `remove_all`. -/
def pool_one_readd : MemPool × List TxResult :=
  (pool_one.1.remove_all).add [input_one] 2 200 acct_rich

/-- Order key of the five-entry removal fixture: seq `i`, fee 100, external,
hash `i + 1`. -/
def rm_order (i : Nat) : TransactionOrder := ⟨i, 100, 10, .External, i, i + 1⟩

/-- Item of the five-entry removal fixture. -/
def rm_item (i : Nat) : MemPoolItem := ⟨mkTx 0 i 100 0 (i + 1) 10, .External, 1, 100, i⟩

/-- A consistent pool with external entries at seqs 0–4 of signer 0, all
`Current` (account seq 0, boundary 5). -/
def pool_rm : MemPool where
  fee_bump_shift := 3
  max_block_number_period_in_pool := 128
  current :=
    ⟨[rm_order 0, rm_order 1, rm_order 2, rm_order 3, rm_order 4], 5, 50, [(100, 5)]⟩
  future := TxQueue.new
  by_signer_public :=
    ⟨[(0, [(0, ⟨rm_order 0, .Current⟩), (1, ⟨rm_order 1, .Current⟩),
      (2, ⟨rm_order 2, .Current⟩), (3, ⟨rm_order 3, .Current⟩),
      (4, ⟨rm_order 4, .Current⟩)])]⟩
  queue_count_limit := 8192
  queue_memory_limit := 1000000000
  by_hash :=
    [(1, rm_item 0), (2, rm_item 1), (3, rm_item 2), (4, rm_item 3), (5, rm_item 4)]
  first_seqs := [(0, 0)]
  next_seqs := [(0, 5)]
  is_local_account := []
  last_block_number := 1
  last_timestamp := 100
  next_transaction_id := 5

/-- Removing the seq-1 and seq-3 entries (hashes 2 and 4) from `pool_rm`
with the account seq still 0. -/
def pool_rm_removed : MemPool := pool_rm.remove [2, 4] (fun _ => 0) 2 200

/-- A consistent pool with one local entry of signer 0 at seq 0. -/
def pool_loc : MemPool where
  fee_bump_shift := 3
  max_block_number_period_in_pool := 128
  current := ⟨[⟨0, 100, 10, .Local, 0, 1⟩], 1, 10, [(100, 1)]⟩
  future := TxQueue.new
  by_signer_public := ⟨[(0, [(0, ⟨⟨0, 100, 10, .Local, 0, 1⟩, .Current⟩)])]⟩
  queue_count_limit := 8192
  queue_memory_limit := 1000000000
  by_hash := [(1, ⟨mkTx 0 0 100 0 1 10, .Local, 1, 100, 0⟩)]
  first_seqs := [(0, 0)]
  next_seqs := [(0, 1)]
  is_local_account := [0]
  last_block_number := 1
  last_timestamp := 100
  next_transaction_id := 1

/-- An oracle whose account seq has advanced to 1 for every signer. -/
def acct_adv : Public → AccountDetails := fun _ => ⟨1000000000000, 1⟩

/-- `remove_old` on `pool_loc` with the advanced oracle. -/
def pool_loc_removed_old : MemPool := pool_loc.remove_old acct_adv 2 200

/-- A consistent pool with one external entry of signer 0 at seq 5, fee
100, in a far-from-full pool. -/
def pool_ext : MemPool where
  fee_bump_shift := 3
  max_block_number_period_in_pool := 128
  current := ⟨[⟨5, 100, 10, .External, 0, 1⟩], 1, 10, [(100, 1)]⟩
  future := TxQueue.new
  by_signer_public := ⟨[(0, [(5, ⟨⟨5, 100, 10, .External, 0, 1⟩, .Current⟩)])]⟩
  queue_count_limit := 8192
  queue_memory_limit := 1000000000
  by_hash := [(1, ⟨mkTx 0 5 100 0 1 10, .External, 1, 100, 0⟩)]
  first_seqs := [(0, 0)]
  next_seqs := [(0, 0)]
  is_local_account := []
  last_block_number := 1
  last_timestamp := 100
  next_transaction_id := 1

/-- A count-full pool (`count_limit = 1`) holding one external entry of fee
5. -/
def pool_full : MemPool where
  fee_bump_shift := 3
  max_block_number_period_in_pool := 128
  current := ⟨[⟨0, 5, 10, .External, 0, 1⟩], 1, 10, [(5, 1)]⟩
  future := TxQueue.new
  by_signer_public := ⟨[(0, [(0, ⟨⟨0, 5, 10, .External, 0, 1⟩, .Current⟩)])]⟩
  queue_count_limit := 1
  queue_memory_limit := 1000000000
  by_hash := [(1, ⟨mkTx 0 0 5 0 1 10, .External, 1, 100, 0⟩)]
  first_seqs := [(0, 0)]
  next_seqs := [(0, 1)]
  is_local_account := []
  last_block_number := 1
  last_timestamp := 100
  next_transaction_id := 1

/-- First (kept) order of the over-limit fixture. -/
def over_o1 : TransactionOrder := ⟨0, 30, 10, .External, 0, 1⟩

/-- Second (evicted) order of the over-limit fixture. -/
def over_o2 : TransactionOrder := ⟨0, 20, 10, .External, 1, 2⟩

/-- A pool over the count limit (`count_limit = 1`) holding two external
entries, used to exercise `enforce_limit`. -/
def pool_over : MemPool where
  fee_bump_shift := 3
  max_block_number_period_in_pool := 128
  current :=
    ⟨[over_o1, over_o2], 2, 20, [(30, 1), (20, 1)]⟩
  future := TxQueue.new
  by_signer_public :=
    ⟨[(0, [(0, ⟨⟨0, 30, 10, .External, 0, 1⟩, .Current⟩)]),
      (1, [(0, ⟨⟨0, 20, 10, .External, 1, 2⟩, .Current⟩)])]⟩
  queue_count_limit := 1
  queue_memory_limit := 1000000000
  by_hash :=
    [(1, ⟨mkTx 0 0 30 0 1 10, .External, 1, 100, 0⟩),
      (2, ⟨mkTx 1 0 20 0 2 10, .External, 1, 100, 1⟩)]
  first_seqs := [(0, 0), (1, 0)]
  next_seqs := [(0, 1), (1, 1)]
  is_local_account := []
  last_block_number := 1
  last_timestamp := 100
  next_transaction_id := 2

/-! ### Lemmas about `get_orders_to_drop` and `enforce_limit` -/

theorem mem_go_sub {limit memory_limit : Nat} :
    ∀ (l : List TransactionOrder) (count mem_usage : Nat) (o : TransactionOrder),
      o ∈ get_orders_to_drop_go limit memory_limit count mem_usage l → o ∈ l := by
  intro l
  induction l with
  | nil => intro count mem o h; simp [get_orders_to_drop_go] at h
  | cons hd t ih =>
    intro count mem o h
    rw [get_orders_to_drop_go] at h
    by_cases hc :
        ¬hd.origin.is_local
          ∧ (mem + hd.mem_usage > memory_limit ∨ count + 1 > limit)
    · simp only [if_pos hc, List.mem_cons] at h
      rcases h with h | h
      · exact h ▸ List.mem_cons_self hd t
      · exact List.mem_cons_of_mem hd (ih _ _ _ h)
    · simp only [if_neg hc] at h
      exact List.mem_cons_of_mem hd (ih _ _ _ h)

theorem mem_go_not_local {limit memory_limit : Nat} :
    ∀ (l : List TransactionOrder) (count mem_usage : Nat) (o : TransactionOrder),
      o ∈ get_orders_to_drop_go limit memory_limit count mem_usage l →
        o.origin.is_local = false := by
  intro l
  induction l with
  | nil => intro count mem o h; simp [get_orders_to_drop_go] at h
  | cons hd t ih =>
    intro count mem o h
    rw [get_orders_to_drop_go] at h
    by_cases hc :
        ¬hd.origin.is_local
          ∧ (mem + hd.mem_usage > memory_limit ∨ count + 1 > limit)
    · simp only [if_pos hc, List.mem_cons] at h
      rcases h with h | h
      · subst h
        exact Bool.not_eq_true _ ▸ (Bool.eq_false_iff.mpr (by simpa using hc.1))
      · exact ih _ _ _ h
    · simp only [if_neg hc] at h
      exact ih _ _ _ h

theorem mem_go_split (limit memory_limit : Nat) :
    ∀ (pre : List TransactionOrder) (o : TransactionOrder)
      (post : List TransactionOrder) (count mem_usage : Nat),
      (pre ++ o :: post).Nodup →
      (o ∈ get_orders_to_drop_go limit memory_limit count mem_usage (pre ++ o :: post) ↔
        ¬o.origin.is_local
          ∧ (memory_limit < mem_usage + (pre.map (fun t => t.mem_usage)).sum + o.mem_usage
            ∨ limit < count + pre.length + 1)) := by
  intro pre
  induction pre with
  | nil =>
    intro o post count mem hnd
    simp only [List.nil_append] at hnd ⊢
    rw [get_orders_to_drop_go]
    have hop : o ∉ post := (List.nodup_cons.mp hnd).1
    simp only [List.map_nil, List.sum_nil, List.length_nil]
    by_cases hc :
        ¬o.origin.is_local ∧ (mem + o.mem_usage > memory_limit ∨ count + 1 > limit)
    · simp only [if_pos hc]
      constructor
      · intro _
        refine ⟨hc.1, ?_⟩
        rcases hc.2 with h | h
        · left; omega
        · right; omega
      · intro _; exact List.mem_cons_self o _
    · simp only [if_neg hc]
      constructor
      · intro h
        exact absurd (mem_go_sub _ _ _ _ h) hop
      · intro h
        exfalso
        apply hc
        refine ⟨h.1, ?_⟩
        rcases h.2 with h' | h'
        · left; omega
        · right; omega
  | cons hd t ih =>
    intro o post count mem hnd
    have hnd' : (t ++ o :: post).Nodup := (List.nodup_cons.mp hnd).2
    have hho : hd ≠ o := by
      intro he
      apply (List.nodup_cons.mp hnd).1
      rw [he]
      exact List.mem_append_right t (List.mem_cons_self o post)
    simp only [List.cons_append]
    rw [get_orders_to_drop_go]
    by_cases hc :
        ¬hd.origin.is_local ∧ (mem + hd.mem_usage > memory_limit ∨ count + 1 > limit)
    · simp only [if_pos hc, List.mem_cons]
      rw [or_iff_right (fun he => hho he.symm)]
      rw [ih o post (count + 1) (mem + hd.mem_usage) hnd']
      constructor
      · rintro ⟨h1, h2⟩
        refine ⟨h1, ?_⟩
        simp only [List.map_cons, List.sum_cons, List.length_cons]
        omega
      · rintro ⟨h1, h2⟩
        refine ⟨h1, ?_⟩
        simp only [List.map_cons, List.sum_cons, List.length_cons] at h2
        omega
    · simp only [if_neg hc]
      rw [ih o post (count + 1) (mem + hd.mem_usage) hnd']
      constructor
      · rintro ⟨h1, h2⟩
        refine ⟨h1, ?_⟩
        simp only [List.map_cons, List.sum_cons, List.length_cons]
        omega
      · rintro ⟨h1, h2⟩
        refine ⟨h1, ?_⟩
        simp only [List.map_cons, List.sum_cons, List.length_cons] at h2
        omega

/-- `drop_one` touches `current` only through the final queue removal. -/
theorem drop_one_current (p : MemPool) (d : TransactionOrder × Bool) :
    (p.drop_one d).current = if d.2 then p.current.remove d.1 else p.current := by
  rw [MemPool.drop_one]
  cases hm : alGet p.by_hash d.1.hash <;> cases hd : d.2 <;> simp [hd]

/-- `drop_one` touches `future` only through the final queue removal. -/
theorem drop_one_future (p : MemPool) (d : TransactionOrder × Bool) :
    (p.drop_one d).future = if d.2 then p.future else p.future.remove d.1 := by
  rw [MemPool.drop_one]
  cases hm : alGet p.by_hash d.1.hash <;> cases hd : d.2 <;> simp [hd]

theorem mem_remove_queue (q : TxQueue) (hnd : q.queue.Nodup) (x o : TransactionOrder) :
    x ∈ (q.remove o).queue ↔ x ∈ q.queue ∧ x ≠ o := by
  rw [TxQueue.remove]
  by_cases ho : o ∈ q.queue
  · simp only [if_pos ho]
    rw [List.Nodup.mem_erase_iff hnd]
    exact and_comm
  · simp only [if_neg ho]
    constructor
    · intro h
      refine ⟨h, ?_⟩
      intro he
      exact ho (he ▸ h)
    · exact fun h => h.1

theorem remove_queue_nodup (q : TxQueue) (hnd : q.queue.Nodup) (o : TransactionOrder) :
    (q.remove o).queue.Nodup := by
  rw [TxQueue.remove]
  by_cases ho : o ∈ q.queue
  · simpa [ho] using hnd.erase o
  · simpa [ho] using hnd

theorem fold_drop_current_mem :
    ∀ (drops : List (TransactionOrder × Bool)) (p : MemPool),
      p.current.queue.Nodup → ∀ x,
        (x ∈ (drops.foldl MemPool.drop_one p).current.queue ↔
          x ∈ p.current.queue ∧ ∀ d ∈ drops, d.2 = true → x ≠ d.1) := by
  intro drops
  induction drops with
  | nil => intro p hnd x; simp
  | cons d ds ih =>
    intro p hnd x
    have hq := drop_one_current p d
    by_cases hd : d.2 = true
    · rw [if_pos hd] at hq
      have hnd' : (p.drop_one d).current.queue.Nodup := by
        rw [hq]; exact remove_queue_nodup _ hnd _
      rw [List.foldl_cons, ih (p.drop_one d) hnd' x, hq, mem_remove_queue _ hnd]
      constructor
      · rintro ⟨⟨h1, h3⟩, h2⟩
        refine ⟨h1, ?_⟩
        intro d' hd' he
        rcases List.mem_cons.mp hd' with h | h
        · subst h; exact h3
        · exact h2 d' h he
      · rintro ⟨h1, h2⟩
        exact ⟨⟨h1, h2 d (List.mem_cons_self d ds) hd⟩,
          fun d' h he => h2 d' (List.mem_cons_of_mem d h) he⟩
    · rw [if_neg hd] at hq
      have hnd' : (p.drop_one d).current.queue.Nodup := by rw [hq]; exact hnd
      rw [List.foldl_cons, ih (p.drop_one d) hnd' x, hq]
      constructor
      · rintro ⟨h1, h2⟩
        refine ⟨h1, ?_⟩
        intro d' hd' he
        rcases List.mem_cons.mp hd' with h | h
        · subst h; exact absurd he hd
        · exact h2 d' h he
      · rintro ⟨h1, h2⟩
        exact ⟨h1, fun d' h he => h2 d' (List.mem_cons_of_mem d h) he⟩

theorem fold_drop_future_mem :
    ∀ (drops : List (TransactionOrder × Bool)) (p : MemPool),
      p.future.queue.Nodup → ∀ x,
        (x ∈ (drops.foldl MemPool.drop_one p).future.queue ↔
          x ∈ p.future.queue ∧ ∀ d ∈ drops, d.2 = false → x ≠ d.1) := by
  intro drops
  induction drops with
  | nil => intro p hnd x; simp
  | cons d ds ih =>
    intro p hnd x
    have hq := drop_one_future p d
    by_cases hd : d.2 = true
    · rw [if_pos hd] at hq
      have hnd' : (p.drop_one d).future.queue.Nodup := by rw [hq]; exact hnd
      rw [List.foldl_cons, ih (p.drop_one d) hnd' x, hq]
      constructor
      · rintro ⟨h1, h2⟩
        refine ⟨h1, ?_⟩
        intro d' hd' he
        rcases List.mem_cons.mp hd' with h | h
        · subst h; rw [hd] at he; cases he
        · exact h2 d' h he
      · rintro ⟨h1, h2⟩
        exact ⟨h1, fun d' h he => h2 d' (List.mem_cons_of_mem d h) he⟩
    · rw [if_neg hd] at hq
      have hdf : d.2 = false := by
        cases hb : d.2
        · rfl
        · exact absurd hb hd
      have hnd' : (p.drop_one d).future.queue.Nodup := by
        rw [hq]; exact remove_queue_nodup _ hnd _
      rw [List.foldl_cons, ih (p.drop_one d) hnd' x, hq, mem_remove_queue _ hnd]
      constructor
      · rintro ⟨⟨h1, h3⟩, h2⟩
        refine ⟨h1, ?_⟩
        intro d' hd' he
        rcases List.mem_cons.mp hd' with h | h
        · subst h; exact h3
        · exact h2 d' h he
      · rintro ⟨h1, h2⟩
        exact ⟨⟨h1, h2 d (List.mem_cons_self d ds) hdf⟩,
          fun d' h he => h2 d' (List.mem_cons_of_mem d h) he⟩

theorem to_drop_current_sub (p : MemPool) (x : TransactionOrder)
    (h : x ∈ p.to_drop_current) : x ∈ p.current.queue := by
  rw [MemPool.to_drop_current] at h
  split at h
  · exact mem_go_sub _ _ _ _ h
  · simp at h

theorem to_drop_future_sub (p : MemPool) (x : TransactionOrder)
    (h : x ∈ p.to_drop_future) : x ∈ p.future.queue := by
  rw [MemPool.to_drop_future] at h
  split at h
  · exact mem_go_sub _ _ _ _ h
  · simp at h

theorem to_drop_current_not_local (p : MemPool) (x : TransactionOrder)
    (h : x ∈ p.to_drop_current) : x.origin.is_local = false := by
  rw [MemPool.to_drop_current] at h
  split at h
  · exact mem_go_not_local _ _ _ _ h
  · simp at h

theorem to_drop_future_not_local (p : MemPool) (x : TransactionOrder)
    (h : x ∈ p.to_drop_future) : x.origin.is_local = false := by
  rw [MemPool.to_drop_future] at h
  split at h
  · exact mem_go_not_local _ _ _ _ h
  · simp at h

/-- The drop list of `enforce_limit`. -/
def MemPool.drops (p : MemPool) : List (TransactionOrder × Bool) :=
  (p.to_drop_current.map fun o => (o, true)) ++ (p.to_drop_future.map fun o => (o, false))

theorem enforce_limit_eq_fold (p : MemPool) :
    p.enforce_limit = p.drops.foldl MemPool.drop_one p := rfl

theorem mem_drops_true (p : MemPool) (d : TransactionOrder × Bool)
    (hd : d ∈ p.drops) (ht : d.2 = true) : d.1 ∈ p.to_drop_current := by
  rw [MemPool.drops] at hd
  rcases List.mem_append.mp hd with h | h
  · rcases List.mem_map.mp h with ⟨a, ha, he⟩
    rw [← he]
    exact ha
  · rcases List.mem_map.mp h with ⟨a, _, he⟩
    rw [← he] at ht
    cases ht

theorem mem_drops_false (p : MemPool) (d : TransactionOrder × Bool)
    (hd : d ∈ p.drops) (ht : d.2 = false) : d.1 ∈ p.to_drop_future := by
  rw [MemPool.drops] at hd
  rcases List.mem_append.mp hd with h | h
  · rcases List.mem_map.mp h with ⟨a, _, he⟩
    rw [← he] at ht
    cases ht
  · rcases List.mem_map.mp h with ⟨a, ha, he⟩
    rw [← he]
    exact ha

/-- `drop_one` always erases exactly the dropped order's hash from
`by_hash`. -/
theorem drop_one_by_hash (p : MemPool) (d : TransactionOrder × Bool) :
    (p.drop_one d).by_hash = alErase p.by_hash d.1.hash := by
  rw [MemPool.drop_one]
  cases hm : alGet p.by_hash d.1.hash <;> cases hd : d.2 <;> simp [hd]

theorem fold_drop_by_hash :
    ∀ (drops : List (TransactionOrder × Bool)) (p : MemPool) (h : TxHash),
      (∀ d ∈ drops, d.1.hash ≠ h) →
      alGet (drops.foldl MemPool.drop_one p).by_hash h = alGet p.by_hash h := by
  intro drops
  induction drops with
  | nil => intro p h _; rfl
  | cons d ds ih =>
    intro p h hne
    rw [List.foldl_cons, ih (p.drop_one d) h
      (fun d' hd' => hne d' (List.mem_cons_of_mem d hd')),
      drop_one_by_hash]
    exact alGet_alErase_ne _ _ _ (fun he => hne d (List.mem_cons_self d ds) he.symm)

/-- C2: for each of the current and future queues whose count exceeds
`count_limit` or whose memory usage exceeds `memory_limit`, the queue's
ordered set is scanned in its iteration order, accumulating a running count
and running memory, and exactly those entries that are not `Local` and for
which the running memory exceeds the memory limit or the running count
exceeds the count limit are evicted.  The entry at position `|pre|` of the
ordered set is marked precisely when it is not local and the inclusive
prefix memory exceeds the memory limit or the inclusive prefix count
exceeds the count limit; `enforce_limit` then removes exactly the marked
entries from each queue. -/
theorem claim_C2_enforce_limit_eviction (p : MemPool) (o : TransactionOrder)
    (pre post : List TransactionOrder)
    (hnc : p.current.queue.Nodup) (hnf : p.future.queue.Nodup)
    (hsplit : p.current.queue = pre ++ o :: post) :
    (o ∈ p.to_drop_current ↔
      (p.current.mem_usage > p.queue_memory_limit ∨ p.current.count > p.queue_count_limit)
        ∧ ¬o.origin.is_local
        ∧ (p.queue_memory_limit < (pre.map (fun t => t.mem_usage)).sum + o.mem_usage
          ∨ p.queue_count_limit < pre.length + 1))
    ∧ (∀ x, x ∈ p.enforce_limit.current.queue ↔
        x ∈ p.current.queue ∧ x ∉ p.to_drop_current)
    ∧ (∀ x, x ∈ p.enforce_limit.future.queue ↔
        x ∈ p.future.queue ∧ x ∉ p.to_drop_future) := by
  refine ⟨?_, ?_, ?_⟩
  · rw [MemPool.to_drop_current]
    by_cases hgate :
        p.current.mem_usage > p.queue_memory_limit ∨ p.current.count > p.queue_count_limit
    · rw [if_pos hgate]
      rw [get_orders_to_drop, hsplit]
      have h := mem_go_split p.queue_count_limit p.queue_memory_limit
        pre o post 0 0 (hsplit ▸ hnc)
      rw [h]
      constructor
      · intro hx
        exact ⟨hgate, hx.1, by
          rcases hx.2 with h' | h'
          · left; omega
          · right; omega⟩
      · intro hx
        exact ⟨hx.2.1, by
          rcases hx.2.2 with h' | h'
          · left; omega
          · right; omega⟩
    · rw [if_neg hgate]
      simp only [List.not_mem_nil, false_iff]
      intro hx
      exact hgate hx.1
  · intro x
    rw [enforce_limit_eq_fold, fold_drop_current_mem p.drops p hnc x]
    constructor
    · rintro ⟨h1, h2⟩
      refine ⟨h1, ?_⟩
      intro hx
      exact h2 (x, true) (List.mem_append_left _ (List.mem_map_of_mem _ hx)) rfl rfl
    · rintro ⟨h1, h2⟩
      refine ⟨h1, ?_⟩
      intro d hd ht he
      exact h2 (he ▸ mem_drops_true p d hd ht)
  · intro x
    rw [enforce_limit_eq_fold, fold_drop_future_mem p.drops p hnf x]
    constructor
    · rintro ⟨h1, h2⟩
      refine ⟨h1, ?_⟩
      intro hx
      exact h2 (x, false) (List.mem_append_right _ (List.mem_map_of_mem _ hx)) rfl rfl
    · rintro ⟨h1, h2⟩
      refine ⟨h1, ?_⟩
      intro d hd ht he
      exact h2 (he ▸ mem_drops_false p d hd ht)

/-- Witness for C2: in the over-limit fixture, the lower-priority external
entry is marked for eviction. -/
theorem claim_C2_enforce_limit_eviction_witness :
    pool_over.current.queue.Nodup ∧ over_o2 ∈ pool_over.to_drop_current :=
  ⟨by decide,
    (claim_C2_enforce_limit_eviction pool_over over_o2 [over_o1] [] (by decide)
      (by decide) (by decide)).1.mpr (by decide)⟩

/-- C6 counterexample: the claim "all Local entries present before either
operation remain present and unchanged afterwards" fails for `remove_old`:
in `pool_loc` the single entry (hash 1) is Local, `remove_old` selects no
hash at all, yet after `remove_old` with an oracle whose account seq
advanced to 1 the entry is gone (dropped by the reconciliation pass, whose
`update_orders` deletes any entry with seq below the account seq regardless
of origin). -/
theorem claim_C6_counterexample :
    ((alGet pool_loc.by_hash 1).map (fun it => it.origin) = some TxOrigin.Local)
      ∧ pool_loc.remove_old_invalid acct_adv 2 = []
      ∧ alGet (pool_loc.remove_old acct_adv 2 200).by_hash 1 = none := by
  decide

/-- C6 (amended): `enforce_limit` never marks a Local entry for eviction,
every Local entry of either queue survives `enforce_limit` unchanged (its
`by_hash` record included), and `remove_old` never selects a Local entry
for removal; however, the reconciliation pass that `remove_old` runs via
`remove` may still drop Local entries whose seq falls below the signer's
advanced account seq. -/
theorem claim_C6_local_protection (p : MemPool) (o : TransactionOrder)
    (fetch_account : Public → AccountDetails) (current_block_number : Nat)
    (h : TxHash) (item : MemPoolItem)
    (hnc : p.current.queue.Nodup) (hnf : p.future.queue.Nodup)
    (horigc : ∀ x ∈ p.current.queue, x.hash = h → x.origin.is_local = true)
    (horigf : ∀ x ∈ p.future.queue, x.hash = h → x.origin.is_local = true)
    (hitem : alGet p.by_hash h = some item)
    (hlocal : item.origin.is_local = true) :
    (∀ x ∈ p.to_drop_current ++ p.to_drop_future, x.origin.is_local = false)
      ∧ (o.origin.is_local = true → o ∈ p.current.queue →
          o ∈ p.enforce_limit.current.queue)
      ∧ (o.origin.is_local = true → o ∈ p.future.queue →
          o ∈ p.enforce_limit.future.queue)
      ∧ alGet p.enforce_limit.by_hash h = some item
      ∧ (∀ hh ∈ p.remove_old_invalid fetch_account current_block_number,
          ∃ it, (hh, it) ∈ p.by_hash ∧ it.origin.is_local = false) := by
  have hdrop_ne : ∀ d ∈ p.drops, d.1.hash ≠ h := by
    intro d hd he
    by_cases ht : d.2 = true
    · have h1 := mem_drops_true p d hd ht
      have h2 := to_drop_current_not_local p d.1 h1
      have h3 := horigc d.1 (to_drop_current_sub p d.1 h1) he
      rw [h2] at h3
      cases h3
    · have htf : d.2 = false := by
        cases hb : d.2
        · rfl
        · exact absurd hb ht
      have h1 := mem_drops_false p d hd htf
      have h2 := to_drop_future_not_local p d.1 h1
      have h3 := horigf d.1 (to_drop_future_sub p d.1 h1) he
      rw [h2] at h3
      cases h3
  refine ⟨?_, ?_, ?_, ?_, ?_⟩
  · intro x hx
    rcases List.mem_append.mp hx with h' | h'
    · exact to_drop_current_not_local p x h'
    · exact to_drop_future_not_local p x h'
  · intro hloc hin
    rw [enforce_limit_eq_fold, fold_drop_current_mem p.drops p hnc o]
    refine ⟨hin, ?_⟩
    intro d hd ht he
    have h2 := to_drop_current_not_local p d.1 (mem_drops_true p d hd ht)
    rw [he] at hloc
    rw [hloc] at h2
    cases h2
  · intro hloc hin
    rw [enforce_limit_eq_fold, fold_drop_future_mem p.drops p hnf o]
    refine ⟨hin, ?_⟩
    intro d hd ht he
    have h2 := to_drop_future_not_local p d.1 (mem_drops_false p d hd ht)
    rw [he] at hloc
    rw [hloc] at h2
    cases h2
  · rw [enforce_limit_eq_fold, fold_drop_by_hash p.drops p h hdrop_ne]
    exact hitem
  · intro hh hmem
    rw [MemPool.remove_old_invalid] at hmem
    rcases List.mem_filterMap.mp hmem with ⟨pr, hpr, hf⟩
    by_cases hl : pr.2.origin.is_local = true
    · rw [if_pos (by simpa using hl)] at hf
      cases hf
    · have hl' : pr.2.origin.is_local = false := by
        cases hb : pr.2.origin.is_local
        · rfl
        · exact absurd hb hl
      refine ⟨pr.2, ?_, hl'⟩
      have hhh : pr.1 = hh := by
        rw [if_neg (by simpa using hl)] at hf
        dsimp only at hf
        split at hf
        · exact Option.some.inj hf
        · split at hf
          · split at hf
            · exact Option.some.inj hf
            · cases hf
          · cases hf
      rw [← hhh]
      simpa using hpr

/-- Witness for C6: in `pool_loc` the Local entry's `by_hash` record
survives `enforce_limit`, and `remove_old` selects only non-local items. -/
theorem claim_C6_local_protection_witness :
    alGet pool_loc.enforce_limit.by_hash 1
        = some ⟨mkTx 0 0 100 0 1 10, .Local, 1, 100, 0⟩ :=
  (claim_C6_local_protection pool_loc ⟨0, 100, 10, .Local, 0, 1⟩ acct_adv 2 1
    ⟨mkTx 0 0 100 0 1 10, .Local, 1, 100, 0⟩ (by decide) (by decide) (by decide)
    (by decide) (by decide) (by decide)).2.2.2.1

/-- C7 counterexample: every condition of the claim holds — effective
origin `External`, a prior tagged order at (signer 0, seq 5) with fee 100,
and new fee 10 below 100 + (100 >> 3) — yet `verify_transaction` fails
with `InsufficientBalance`, not `TooCheapToReplace`, because the balance
check precedes the replacement check. -/
theorem claim_C7_counterexample :
    pool_ext.by_signer_public.get 0 5
        = some ⟨⟨5, 100, 10, .External, 0, 1⟩, .Current⟩
      ∧ (10 : Nat) < 100 + (100 >>> pool_ext.fee_bump_shift)
      ∧ pool_ext.verify_transaction (mkTx 0 5 10 0 9 10) .External ⟨0, 0⟩
          = some (.insufficientBalance 0 10 0)
      ∧ pool_ext.verify_transaction (mkTx 0 5 10 0 9 10) .External ⟨0, 0⟩
          ≠ some .tooCheapToReplace := by
  decide

/-- C7 (amended): `verify_transaction` fails with `TooCheapToReplace`
exactly when the effective origin is not `Local`, every earlier check
passes (fee at least the effective minimum fee, balance at least the fee,
hash not yet imported, seq not below the account seq), a prior tagged
order exists at the same (signer, seq), and the new fee is strictly less
than `old_fee + (old_fee >> fee_bump_shift)`; in particular a `Local`
transaction is never rejected with `TooCheapToReplace`. -/
theorem claim_C7_too_cheap_to_replace (p : MemPool) (tx : VerifiedTransaction)
    (origin : TxOrigin) (acct : AccountDetails) :
    (p.verify_transaction tx origin acct = some .tooCheapToReplace ↔
      origin ≠ .Local
        ∧ p.effective_minimum_fee ≤ tx.tx.fee
        ∧ tx.tx.fee ≤ acct.balance
        ∧ alGet p.by_hash tx.hash = none
        ∧ acct.seq ≤ tx.tx.seq
        ∧ ∃ owt, p.by_signer_public.get tx.signer_public tx.tx.seq = some owt
            ∧ tx.tx.fee < owt.order.fee + (owt.order.fee >>> p.fee_bump_shift))
    ∧ (origin = .Local →
        p.verify_transaction tx origin acct ≠ some .tooCheapToReplace) := by
  have hiff : p.verify_transaction tx origin acct = some .tooCheapToReplace ↔
      origin ≠ .Local
        ∧ p.effective_minimum_fee ≤ tx.tx.fee
        ∧ tx.tx.fee ≤ acct.balance
        ∧ alGet p.by_hash tx.hash = none
        ∧ acct.seq ≤ tx.tx.seq
        ∧ ∃ owt, p.by_signer_public.get tx.signer_public tx.tx.seq = some owt
            ∧ tx.tx.fee < owt.order.fee + (owt.order.fee >>> p.fee_bump_shift) := by
    rw [MemPool.verify_transaction]
    dsimp only
    split_ifs with h1 h2 h3 h4 h5
    · simp only [Option.some.injEq, reduceCtorEq, false_iff]
      rintro ⟨ha, hb, -⟩
      have hlt := h1.2
      omega
    · simp only [Option.some.injEq, reduceCtorEq, false_iff]
      rintro ⟨-, -, hc, -⟩
      omega
    · simp only [Option.some.injEq, reduceCtorEq, false_iff]
      rintro ⟨-, -, -, hd, -⟩
      rw [hd] at h3
      cases h3
    · simp only [Option.some.injEq, reduceCtorEq, false_iff]
      rintro ⟨-, -, -, -, he, -⟩
      omega
    · cases hget : p.by_signer_public.get tx.signer_public tx.tx.seq with
      | none =>
        simp only [reduceCtorEq, false_iff]
        rintro ⟨-, -, -, -, -, owt, ho, -⟩
        simp at ho
      | some owt =>
        dsimp only
        split_ifs with h6
        · simp only [Option.some.injEq, true_iff]
          refine ⟨h5, ?_, by omega, ?_, by omega, owt, rfl, h6⟩
          · by_cases hfee : tx.tx.fee < p.effective_minimum_fee
            · exact absurd ⟨h5, hfee⟩ h1
            · omega
          · cases hbh : alGet p.by_hash tx.hash
            · rfl
            · rw [hbh] at h3
              exact absurd rfl h3
        · simp only [reduceCtorEq, false_iff]
          rintro ⟨-, -, -, -, -, owt', ho, hlt⟩
          cases ho
          exact h6 hlt
    · simp only [reduceCtorEq, false_iff]
      rintro ⟨ha, -⟩
      exact h5 ha
  refine ⟨hiff, ?_⟩
  intro hloc he
  exact ((hiff.mp he).1) hloc

/-- C8: `effective_minimum_fee` returns the smallest fee present in
`current` plus one when the size of `current` is at least `count_limit`,
and 0 otherwise; and `verify_transaction` fails with `InsufficientFee
{ minimal, got }` (with `minimal` the effective minimum fee and `got` the
transaction's fee) exactly when the effective origin is not `Local`, the
pool is count-full and the transaction's fee is strictly below
`effective_minimum_fee`.  The two hypotheses record that the queue's
aggregates are in sync with its ordered set (the priority-queue invariant
of §4.1): the count aggregate equals the set's size and the fee
histogram's smallest key is the smallest fee present. -/
theorem claim_C8_insufficient_fee (p : MemPool) (tx : VerifiedTransaction)
    (origin : TxOrigin) (acct : AccountDetails)
    (hfc : natMin? (p.current.fee_counter.map Prod.fst)
      = natMin? (p.current.queue.map (fun o => o.fee)))
    (hcnt : p.current.count = p.current.queue.length) :
    (∀ m, p.queue_count_limit ≤ p.current.queue.length →
        natMin? (p.current.queue.map (fun o => o.fee)) = some m →
        p.effective_minimum_fee = m + 1)
      ∧ (p.current.queue.length < p.queue_count_limit → p.effective_minimum_fee = 0)
      ∧ (p.verify_transaction tx origin acct
            = some (.insufficientFee p.effective_minimum_fee tx.tx.fee) ↔
          origin ≠ .Local ∧ p.queue_count_limit ≤ p.current.queue.length
            ∧ tx.tx.fee < p.effective_minimum_fee)
      ∧ (∀ m g, p.verify_transaction tx origin acct = some (.insufficientFee m g) →
          m = p.effective_minimum_fee ∧ g = tx.tx.fee) := by
  have hfull : ∀ m, p.queue_count_limit ≤ p.current.queue.length →
      natMin? (p.current.queue.map (fun o => o.fee)) = some m →
      p.effective_minimum_fee = m + 1 := by
    intro m hle hmin
    rw [MemPool.effective_minimum_fee, if_pos (by rw [TxQueue.len, hcnt]; omega)]
    rw [TxQueue.minimum_fee, hfc, hmin]
  have hnotfull : p.current.queue.length < p.queue_count_limit →
      p.effective_minimum_fee = 0 := by
    intro hlt
    rw [MemPool.effective_minimum_fee, if_neg (by rw [TxQueue.len, hcnt]; omega)]
  have hzero : ¬p.queue_count_limit ≤ p.current.queue.length →
      p.effective_minimum_fee = 0 := fun hn => hnotfull (by omega)
  refine ⟨hfull, hnotfull, ?_, ?_⟩
  · rw [MemPool.verify_transaction]
    dsimp only
    split_ifs with h1 h2 h3 h4 h5
    · simp only [Option.some.injEq, MemPoolErr.insufficientFee.injEq, true_and,
        true_iff]
      refine ⟨h1.1, ?_, h1.2⟩
      by_cases hle : p.queue_count_limit ≤ p.current.queue.length
      · exact hle
      · rw [hzero hle] at h1
        exact absurd h1.2 (by omega)
    · simp only [Option.some.injEq, reduceCtorEq, false_iff]
      rintro ⟨ha, -, hc⟩
      exact h1 ⟨ha, hc⟩
    · simp only [Option.some.injEq, reduceCtorEq, false_iff]
      rintro ⟨ha, -, hc⟩
      exact h1 ⟨ha, hc⟩
    · simp only [Option.some.injEq, reduceCtorEq, false_iff]
      rintro ⟨ha, -, hc⟩
      exact h1 ⟨ha, hc⟩
    · cases hget : p.by_signer_public.get tx.signer_public tx.tx.seq with
      | none =>
        simp only [reduceCtorEq, false_iff]
        rintro ⟨ha, -, hc⟩
        exact h1 ⟨ha, hc⟩
      | some owt =>
        dsimp only
        split_ifs with h6 <;>
          simp only [Option.some.injEq, reduceCtorEq, false_iff] <;>
          rintro ⟨ha, -, hc⟩ <;> exact h1 ⟨ha, hc⟩
    · simp only [reduceCtorEq, false_iff]
      rintro ⟨ha, -, hc⟩
      exact h1 ⟨ha, hc⟩
  · intro m g
    rw [MemPool.verify_transaction]
    dsimp only
    split_ifs with h1 h2 h3 h4 h5
    · intro he
      have := (Option.some.inj he)
      cases this
      exact ⟨rfl, rfl⟩
    · intro he
      cases Option.some.inj he
    · intro he
      cases Option.some.inj he
    · intro he
      cases Option.some.inj he
    · cases hget : p.by_signer_public.get tx.signer_public tx.tx.seq with
      | none => intro he; cases he
      | some owt =>
        dsimp only
        split_ifs with h6
        · intro he
          cases Option.some.inj he
        · intro he
          cases he
    · intro he
      cases he

/-- Witness for C8: the count-full fixture has effective minimum fee 6 and
rejects an external transaction of fee 3. -/
theorem claim_C8_insufficient_fee_witness :
    pool_full.effective_minimum_fee = 5 + 1 ∧
      pool_full.verify_transaction (mkTx 1 0 3 0 9 10) .External ⟨1000, 0⟩
        = some (.insufficientFee pool_full.effective_minimum_fee 3) :=
  ⟨(claim_C8_insufficient_fee pool_full (mkTx 1 0 3 0 9 10) .External ⟨1000, 0⟩
      (by decide) (by decide)).1 5 (by decide) (by decide),
    (claim_C8_insufficient_fee pool_full (mkTx 1 0 3 0 9 10) .External ⟨1000, 0⟩
      (by decide) (by decide)).2.2.1.mpr (by decide)⟩

/-- C10: whenever `verify_transaction` rejects a transaction because the
account balance is strictly below the transaction's fee (the fee-floor
check having passed), the `InsufficientBalance` error carries a `cost`
field equal to the transaction's fee alone — which differs from the data
model's `cost` (fee plus value transferred) whenever the transferred
quantity is positive. -/
theorem claim_C10_insufficient_balance_payload (p : MemPool)
    (tx : VerifiedTransaction) (origin : TxOrigin) (acct : AccountDetails)
    (hfee : origin = .Local ∨ p.effective_minimum_fee ≤ tx.tx.fee)
    (hbal : acct.balance < tx.tx.fee) :
    p.verify_transaction tx origin acct
        = some (.insufficientBalance tx.signer_public tx.tx.fee acct.balance)
      ∧ (0 < tx.tx.quantity → tx.tx.fee ≠ tx.tx.cost) := by
  constructor
  · rw [MemPool.verify_transaction]
    dsimp only
    rw [if_neg, if_pos hbal]
    rintro ⟨h1, h2⟩
    rcases hfee with h | h
    · exact h1 h
    · omega
  · intro hq
    rw [Transaction.cost]
    omega

/-- Witness for C10: a local transaction of fee 5 and quantity 7 against a
balance of 3 is rejected with payload cost 5, not the data-model cost 12. -/
theorem claim_C10_insufficient_balance_payload_witness :
    pool0.verify_transaction (mkTx 0 0 5 7 1 10) .Local ⟨3, 0⟩
        = some (.insufficientBalance 0 5 3)
      ∧ (0 < (7 : Nat) → (5 : Nat) ≠ (mkTx 0 0 5 7 1 10).tx.cost) :=
  claim_C10_insufficient_balance_payload pool0 (mkTx 0 0 5 7 1 10) .Local ⟨3, 0⟩
    (Or.inl rfl) (by decide)

/-! ### `top_transactions` -/

theorem take_while_size_spec (size_limit : Nat) :
    ∀ (xs : List MemPoolItem) (acc : Nat),
      ∃ k, take_while_size size_limit acc xs = xs.take k ∧ k ≤ xs.length
        ∧ (∀ i, i < k →
            acc + (((xs.take (i + 1)).map fun t => t.tx.encoded_size).sum) < size_limit)
        ∧ (k < xs.length →
            size_limit ≤ acc + (((xs.take (k + 1)).map fun t => t.tx.encoded_size).sum)) := by
  intro xs
  induction xs with
  | nil =>
    intro acc
    exact ⟨0, rfl, Nat.le_refl 0, fun i hi => absurd hi (Nat.not_lt_zero i), by simp⟩
  | cons x t ih =>
    intro acc
    rw [take_while_size]
    by_cases hc : acc + x.tx.encoded_size < size_limit
    · rw [if_pos hc]
      obtain ⟨k, hk1, hk2, hk3, hk4⟩ := ih (acc + x.tx.encoded_size)
      refine ⟨k + 1, ?_, by simpa using hk2, ?_, ?_⟩
      · rw [List.take_succ_cons, hk1]
      · intro i hi
        cases i with
        | zero => simpa using hc
        | succ j =>
          rw [List.take_succ_cons]
          simp only [List.map_cons, List.sum_cons]
          have := hk3 j (by omega)
          omega
      · intro hlt
        rw [List.take_succ_cons]
        simp only [List.map_cons, List.sum_cons]
        have := hk4 (by simpa using hlt)
        omega
    · rw [if_neg hc]
      refine ⟨0, by simp, Nat.zero_le _, fun i hi => absurd hi (Nat.not_lt_zero i), ?_⟩
      intro _
      simpa using (by omega : size_limit ≤ acc + x.tx.encoded_size)

/-- C9: `top_transactions(size_limit, range)` returns, in the iteration
order of `current` (its priority order), the transactions of `current`
whose inserted timestamp lies in the range, as the maximal prefix along
which every inclusive cumulative serialized size stays strictly below
`size_limit` (the first entry whose inclusion would make the cumulative
size reach or exceed the limit is excluded and ends the prefix), together
with the maximum inserted timestamp over the included entries. -/
theorem claim_C9_top_transactions (p : MemPool) (size_limit lo hi : Nat) :
    ((p.top_transactions size_limit lo hi).1
        = ((p.pending_items_in_range lo hi).take
            (p.top_transactions size_limit lo hi).1.length).map (fun t => t.tx))
      ∧ ((p.top_transactions size_limit lo hi).1.length
          ≤ (p.pending_items_in_range lo hi).length)
      ∧ (∀ i, i < (p.top_transactions size_limit lo hi).1.length →
          ((((p.pending_items_in_range lo hi).take (i + 1)).map
              fun t => t.tx.encoded_size).sum) < size_limit)
      ∧ ((p.top_transactions size_limit lo hi).1.length
            < (p.pending_items_in_range lo hi).length →
          size_limit ≤ ((((p.pending_items_in_range lo hi).take
              ((p.top_transactions size_limit lo hi).1.length + 1)).map
              fun t => t.tx.encoded_size).sum))
      ∧ ((p.top_transactions size_limit lo hi).2
          = natMax? (((p.pending_items_in_range lo hi).take
              (p.top_transactions size_limit lo hi).1.length).map
              fun t => t.inserted_timestamp)) := by
  obtain ⟨k, hk1, hk2, hk3, hk4⟩ :=
    take_while_size_spec size_limit (p.pending_items_in_range lo hi) 0
  have hlen : (p.top_transactions size_limit lo hi).1.length = k := by
    rw [MemPool.top_transactions]
    dsimp only
    rw [hk1, List.length_map, List.length_take]
    omega
  rw [hlen]
  refine ⟨?_, hk2, ?_, ?_, ?_⟩
  · rw [MemPool.top_transactions]
    dsimp only
    rw [hk1]
  · intro i hi
    have := hk3 i hi
    omega
  · intro hlt
    have := hk4 hlt
    omega
  · rw [MemPool.top_transactions]
    dsimp only
    rw [hk1]

/-! ### Scenario claims -/

/-- C4: starting from an empty pool with signer 0's account seq 0, adding
seqs [0, 1, 2] classifies all three entries as `Current`; removing the
hash of the seq-1 entry leaves the seq-0 entry `Current`, deletes the
seq-1 slot, and reclassifies the seq-2 entry as `Future` (mirroring the
repository test
`transactions_are_moved_to_future_queue_if_the_preceding_one_removed`). -/
theorem claim_C4_gap_demotion :
    gap_added.2 = [.ok .Current, .ok .Current, .ok .Current]
      ∧ (gap_added.1.by_signer_public.get 0 0).map (fun o => o.tag) = some .Current
      ∧ (gap_added.1.by_signer_public.get 0 1).map (fun o => o.tag) = some .Current
      ∧ (gap_added.1.by_signer_public.get 0 2).map (fun o => o.tag) = some .Current
      ∧ (gap_removed.by_signer_public.get 0 0).map (fun o => o.tag) = some .Current
      ∧ gap_removed.by_signer_public.get 0 1 = none
      ∧ (gap_removed.by_signer_public.get 0 2).map (fun o => o.tag) = some .Future := by
  decide

/-- C1: the cross-index invariants (asserted by the code itself at the end
of `add` and `remove`) hold after an `add`, but `remove_all` breaks them:
it clears only the two queues, leaving `by_hash` and the signer index
populated, so `|current| + |future| = 0 ≠ |by_hash|` on any nonempty
pool. -/
theorem claim_C1_invariants_broken_by_remove_all :
    pool_one.1.check_invariants = true
      ∧ pool_one.1.by_hash.length = 1
      ∧ (pool_one.1.remove_all).by_hash.length = 1
      ∧ (pool_one.1.remove_all).current.len + (pool_one.1.remove_all).future.len = 0
      ∧ (pool_one.1.remove_all).check_invariants = false := by
  decide

/-- C5: re-adding the same input after `remove_all` does not reproduce the
original classification: the stale `by_hash` entry makes verification fail
with `TransactionAlreadyImported`, and the `add` ends in a state where the
code's own invariant assertion fails. -/
theorem claim_C5_remove_all_readd_differs :
    pool_one.2 = [.ok .Current]
      ∧ pool_one_readd.2 = [.err .transactionAlreadyImported]
      ∧ pool_one_readd.2 ≠ pool_one.2
      ∧ pool_one_readd.1.check_invariants = false := by
  decide

/-! ### Frame lemmas

The reconciliation helpers touch only the queues, `by_hash` and the signer
index; the lemmas below record that `first_seqs`, `next_seqs` and the two
last-use scalars survive them. -/

/-- The maps and scalars that `remove`'s boundary computation reads. -/
def SeqMapsEq (q p : MemPool) : Prop :=
  q.first_seqs = p.first_seqs ∧ q.next_seqs = p.next_seqs
    ∧ q.last_block_number = p.last_block_number ∧ q.last_timestamp = p.last_timestamp

theorem seq_maps_eq_refl (p : MemPool) : SeqMapsEq p p := ⟨rfl, rfl, rfl, rfl⟩

theorem seq_maps_eq_trans {r q p : MemPool} (h1 : SeqMapsEq r q) (h2 : SeqMapsEq q p) :
    SeqMapsEq r p :=
  ⟨h1.1.trans h2.1, h1.2.1.trans h2.2.1, h1.2.2.1.trans h2.2.2.1,
    h1.2.2.2.trans h2.2.2.2⟩

theorem foldl_seq_maps_eq {α : Type} (f : MemPool → α → MemPool)
    (hf : ∀ p a, SeqMapsEq (f p a) p) :
    ∀ (l : List α) (p : MemPool), SeqMapsEq (l.foldl f p) p := by
  intro l
  induction l with
  | nil => intro p; exact seq_maps_eq_refl p
  | cons a t ih =>
    intro p
    exact seq_maps_eq_trans (ih (f p a)) (hf p a)

theorem update_one_core_seq_maps (p : MemPool) (public : Public)
    (current_seq new_next_seq : Nat) (to_local : Bool) (seq : Nat)
    (o : TransactionOrder) :
    SeqMapsEq (p.update_one_core public current_seq new_next_seq to_local seq o) p := by
  rw [MemPool.update_one_core]
  dsimp only
  split_ifs <;> exact ⟨rfl, rfl, rfl, rfl⟩

theorem update_one_seq_maps (p : MemPool) (public : Public)
    (current_seq new_next_seq : Nat) (to_local : Bool) (seq : Nat) :
    SeqMapsEq (p.update_one public current_seq new_next_seq to_local seq) p := by
  rw [MemPool.update_one]
  cases hget : p.by_signer_public.get public seq with
  | none => exact seq_maps_eq_refl p
  | some owt =>
    rcases owt with ⟨o, tag⟩
    cases tag
    · exact update_one_core_seq_maps _ _ _ _ _ _ _
    · exact update_one_core_seq_maps _ _ _ _ _ _ _
    · exact seq_maps_eq_refl p

theorem update_orders_seq_maps (p : MemPool) (public : Public)
    (current_seq new_next_seq : Nat) (to_local : Bool) :
    SeqMapsEq (p.update_orders public current_seq new_next_seq to_local) p :=
  foldl_seq_maps_eq _
    (fun p seq => update_one_seq_maps p public current_seq new_next_seq to_local seq)
    _ p

theorem move_one_seq_maps (p : MemPool) (public : Public) (s : Nat)
    (dest : QueueTag) : SeqMapsEq (p.move_one public s dest) p := by
  rw [MemPool.move_one]
  cases hget : p.by_signer_public.get public s with
  | none => exact seq_maps_eq_refl p
  | some owt =>
    rcases owt with ⟨o, tag⟩
    cases tag <;> cases dest <;> exact ⟨rfl, rfl, rfl, rfl⟩

theorem move_queue_seq_maps (p : MemPool) (public : Public)
    (start_seq end_seq : Nat) (dest : QueueTag) :
    SeqMapsEq (p.move_queue public start_seq end_seq dest) p :=
  foldl_seq_maps_eq _ (fun p s => move_one_seq_maps p public s dest) _ p

theorem remove_hash_seq_maps (fetch_seq : Public → Nat)
    (st : MemPool × List (Public × Nat)) (hash : TxHash) :
    SeqMapsEq (MemPool.remove_hash fetch_seq st hash).1 st.1 := by
  rw [MemPool.remove_hash]
  cases hget : alGet st.1.by_hash hash with
  | none => exact seq_maps_eq_refl st.1
  | some item =>
    dsimp only
    cases hg : st.1.by_signer_public.get item.signer_public item.seq with
    | none => exact ⟨rfl, rfl, rfl, rfl⟩
    | some owt =>
      rcases owt with ⟨o, tag⟩
      cases tag <;> exact ⟨rfl, rfl, rfl, rfl⟩

theorem remove_phase1_seq_maps (p : MemPool) (hashes : List TxHash)
    (fetch_seq : Public → Nat) :
    SeqMapsEq (p.remove_phase1 hashes fetch_seq).1 p := by
  rw [MemPool.remove_phase1]
  suffices h : ∀ (l : List TxHash) (st : MemPool × List (Public × Nat)),
      SeqMapsEq (l.foldl (MemPool.remove_hash fetch_seq) st).1 st.1 by
    exact h hashes (p, [])
  intro l
  induction l with
  | nil => intro st; exact seq_maps_eq_refl st.1
  | cons a t ih =>
    intro st
    exact seq_maps_eq_trans (ih (MemPool.remove_hash fetch_seq st a))
      (remove_hash_seq_maps fetch_seq st a)

/-- The removed-seq map built by `remove`'s hash loop only records
sequences at or above the signer's current account seq. -/
theorem remove_phase1_removed_ge (fetch_seq : Public → Nat) :
    ∀ (l : List TxHash) (st : MemPool × List (Public × Nat)) (s : Public) (r : Nat),
      (∀ r', alGet st.2 s = some r' → fetch_seq s ≤ r') →
      alGet (l.foldl (MemPool.remove_hash fetch_seq) st).2 s = some r →
      fetch_seq s ≤ r := by
  intro l
  induction l with
  | nil =>
    intro st s r hinv hget
    exact hinv r hget
  | cons a t ih =>
    intro st s r hinv hget
    refine ih (MemPool.remove_hash fetch_seq st a) s r ?_ hget
    intro r' hr'
    rw [MemPool.remove_hash] at hr'
    cases hbh : alGet st.1.by_hash a with
    | none =>
      rw [hbh] at hr'
      exact hinv r' hr'
    | some item =>
      rw [hbh] at hr'
      dsimp only at hr'
      by_cases hcs : fetch_seq item.signer_public ≤ item.seq
      · rw [if_pos hcs] at hr'
        cases hold : alGet st.2 item.signer_public with
        | none =>
          rw [hold] at hr'
          by_cases hs : s = item.signer_public
          · subst hs
            rw [alGet_alSet_self] at hr'
            cases hr'
            exact hcs
          · rw [alGet_alSet_ne _ _ _ _ hs] at hr'
            exact hinv r' hr'
        | some old_seq =>
          rw [hold] at hr'
          dsimp only at hr'
          split_ifs at hr'
          · exact hinv r' hr'
          · by_cases hs : s = item.signer_public
            · subst hs
              rw [alGet_alSet_self] at hr'
              cases hr'
              exact hcs
            · rw [alGet_alSet_ne _ _ _ _ hs] at hr'
              exact hinv r' hr'
      · rw [if_neg hcs] at hr'
        exact hinv r' hr'

theorem update_orders_first_seqs (p : MemPool) (public : Public)
    (c n : Nat) (t : Bool) : (p.update_orders public c n t).first_seqs = p.first_seqs :=
  (update_orders_seq_maps p public c n t).1

theorem update_orders_next_seqs (p : MemPool) (public : Public)
    (c n : Nat) (t : Bool) : (p.update_orders public c n t).next_seqs = p.next_seqs :=
  (update_orders_seq_maps p public c n t).2.1

theorem move_queue_first_seqs (p : MemPool) (public : Public)
    (a b : Nat) (d : QueueTag) : (p.move_queue public a b d).first_seqs = p.first_seqs :=
  (move_queue_seq_maps p public a b d).1

theorem move_queue_next_seqs (p : MemPool) (public : Public)
    (a b : Nat) (d : QueueTag) : (p.move_queue public a b d).next_seqs = p.next_seqs :=
  (move_queue_seq_maps p public a b d).2.1

/-- Reconciling a different signer preserves this signer's `first_seqs`
and `next_seqs` entries and the last-use scalars. -/
theorem reconcile_remove_frame (fetch_seq : Public → Nat) (bn ts : Nat)
    (removed : List (Public × Nat)) (p : MemPool) (pub s : Public)
    (hne : pub ≠ s) :
    alGet (MemPool.reconcile_remove fetch_seq bn ts removed p pub).first_seqs s
        = alGet p.first_seqs s
      ∧ alGet (MemPool.reconcile_remove fetch_seq bn ts removed p pub).next_seqs s
        = alGet p.next_seqs s
      ∧ (MemPool.reconcile_remove fetch_seq bn ts removed p pub).last_block_number
        = p.last_block_number
      ∧ (MemPool.reconcile_remove fetch_seq bn ts removed p pub).last_timestamp
        = p.last_timestamp := by
  have hsp : s ≠ pub := Ne.symm hne
  rw [MemPool.reconcile_remove]
  dsimp only
  split_ifs <;>
    refine ⟨?_, ?_, ?_, ?_⟩ <;>
    simp [alGet_alSet_ne, alGet_alErase_ne, hsp, update_orders_first_seqs,
      update_orders_next_seqs, (update_orders_seq_maps p pub _ _ _).2.2.1,
      (update_orders_seq_maps p pub _ _ _).2.2.2, move_queue_first_seqs,
      move_queue_next_seqs, (move_queue_seq_maps p pub _ _ _).2.2.1,
      (move_queue_seq_maps p pub _ _ _).2.2.2]

/-- Reconciling a signer with a recorded removed seq (under no block,
timestamp or account-seq regression) sets its boundary to exactly that
removed seq. -/
theorem reconcile_remove_boundary_self (fetch_seq : Public → Nat) (bn ts : Nat)
    (removed : List (Public × Nat)) (p : MemPool) (s : Public) (r : Nat)
    (hbn : p.last_block_number ≤ bn) (hts : p.last_timestamp ≤ ts)
    (hfirst : (alGet p.first_seqs s).getD 0 ≤ fetch_seq s)
    (hnext : fetch_seq s ≤ (alGet p.next_seqs s).getD (fetch_seq s))
    (hr : alGet removed s = some r) (hge : fetch_seq s ≤ r) :
    (MemPool.reconcile_remove fetch_seq bn ts removed p s).boundary s = r := by
  have hguard : ¬(fetch_seq s < (alGet p.first_seqs s).getD 0
      ∨ bn < p.last_block_number ∨ ts < p.last_timestamp
      ∨ (alGet p.next_seqs s).getD (fetch_seq s) < fetch_seq s) := by
    push_neg
    exact ⟨hfirst, hbn, hts, hnext⟩
  rw [MemPool.reconcile_remove]
  dsimp only
  simp only [if_neg hguard, hr]
  by_cases hA : fetch_seq s ≠ (alGet p.first_seqs s).getD 0
  · simp only [if_pos hA]
    by_cases hB : r ≤ fetch_seq s
    · simp only [if_pos hB]
      split_ifs <;>
        · simp only [MemPool.boundary, alGet_alErase_self, alGet_alSet_self,
            Option.getD_some]
          omega
    · simp only [if_neg hB]
      split_ifs <;>
        · simp only [MemPool.boundary, alGet_alErase_self, alGet_alSet_self,
            Option.getD_some]
  · have hA' : fetch_seq s = (alGet p.first_seqs s).getD 0 := not_ne_iff.mp hA
    simp only [if_neg hA]
    by_cases hB : r ≤ (alGet p.first_seqs s).getD 0
    · simp only [if_pos hB]
      split_ifs <;>
        · simp only [MemPool.boundary, alGet_alErase_self, alGet_alSet_self,
            move_queue_first_seqs, Option.getD_some]
          omega
    · simp only [if_neg hB]
      split_ifs <;>
        · simp only [MemPool.boundary, alGet_alErase_self, alGet_alSet_self,
            move_queue_next_seqs, Option.getD_some]

theorem boundary_congr {q p' : MemPool} (s : Public)
    (h1 : alGet q.next_seqs s = alGet p'.next_seqs s)
    (h2 : alGet q.first_seqs s = alGet p'.first_seqs s) :
    q.boundary s = p'.boundary s := by
  rw [MemPool.boundary, MemPool.boundary, h1, h2]

theorem fold_reconcile_frame (fetch_seq : Public → Nat) (bn ts : Nat)
    (removed : List (Public × Nat)) (s : Public) :
    ∀ (keys : List Public) (p : MemPool), (∀ k ∈ keys, k ≠ s) →
      alGet ((keys.foldl (MemPool.reconcile_remove fetch_seq bn ts removed) p)).first_seqs s
          = alGet p.first_seqs s
        ∧ alGet ((keys.foldl (MemPool.reconcile_remove fetch_seq bn ts removed) p)).next_seqs s
          = alGet p.next_seqs s := by
  intro keys
  induction keys with
  | nil => intro p _; exact ⟨rfl, rfl⟩
  | cons k t ih =>
    intro p hk
    have hframe := reconcile_remove_frame fetch_seq bn ts removed p k s
      (hk k (List.mem_cons_self k t))
    have ht := ih (MemPool.reconcile_remove fetch_seq bn ts removed p k)
      (fun k' hk' => hk k' (List.mem_cons_of_mem k hk'))
    rw [List.foldl_cons]
    exact ⟨ht.1.trans hframe.1, ht.2.trans hframe.2.1⟩

theorem fold_reconcile_boundary (fetch_seq : Public → Nat) (bn ts : Nat)
    (removed : List (Public × Nat)) (s : Public) (r : Nat) :
    ∀ (keys : List Public) (p : MemPool), keys.Nodup → s ∈ keys →
      p.last_block_number ≤ bn → p.last_timestamp ≤ ts →
      (alGet p.first_seqs s).getD 0 ≤ fetch_seq s →
      fetch_seq s ≤ (alGet p.next_seqs s).getD (fetch_seq s) →
      alGet removed s = some r → fetch_seq s ≤ r →
      ((keys.foldl (MemPool.reconcile_remove fetch_seq bn ts removed) p)).boundary s = r := by
  intro keys
  induction keys with
  | nil => intro p _ hmem; cases hmem
  | cons k t ih =>
    intro p hnd hmem hbn hts hfirst hnext hr hge
    rw [List.foldl_cons]
    by_cases hk : k = s
    · subst hk
      have hself :=
        reconcile_remove_boundary_self fetch_seq bn ts removed p k r hbn hts hfirst
          hnext hr hge
      have hnotin : ∀ k' ∈ t, k' ≠ k := by
        intro k' hk' he
        exact (List.nodup_cons.mp hnd).1 (he ▸ hk')
      have hframe := fold_reconcile_frame fetch_seq bn ts removed k t
        (MemPool.reconcile_remove fetch_seq bn ts removed p k) hnotin
      exact (boundary_congr k hframe.2 hframe.1).trans hself
    · have hmem' : s ∈ t := by
        rcases List.mem_cons.mp hmem with h | h
        · exact absurd h.symm hk
        · exact h
      have hframe := reconcile_remove_frame fetch_seq bn ts removed p k s hk
      refine ih (MemPool.reconcile_remove fetch_seq bn ts removed p k)
        (List.nodup_cons.mp hnd).2 hmem' ?_ ?_ ?_ ?_ hr hge
      · rw [hframe.2.2.1]; exact hbn
      · rw [hframe.2.2.2]; exact hts
      · rw [hframe.1]; exact hfirst
      · rw [hframe.2.1]; exact hnext

/-- C3 counterexample: in `pool_rm` (entries at seqs 0–4, all Current,
account seq 0, boundary 5), removing the seq-1 and seq-3 entries records
the LOWEST removed seq 1 per signer (not the highest, 3), and the new
boundary is that recorded seq 1 — whereas the claim's formula
`next_seq_of_queued(signer, max(removed_seq + 1, previous next_seq))`
= `next_seq_of_queued(signer, max(4, 5))` evaluates to 5 on the
post-removal row {0, 2, 4}. -/
theorem claim_C3_counterexample :
    (pool_rm.remove_phase1 [2, 4] (fun _ => 0)).2 = [(0, 1)]
      ∧ pool_rm_removed.boundary 0 = 1
      ∧ (pool_rm.remove_phase1 [2, 4] (fun _ => 0)).1.next_seq_of_queued 0
          (max (3 + 1) 5) = 5
      ∧ (1 : Nat) ≠ 5 := by
  decide

/-- C3 (amended): `remove` tracks, per signer, the LOWEST removed sequence
at or above the signer's current account seq; for every call with
non-regressed block number and timestamp, and every signer still present
whose account seq has not regressed below `first_seq` and whose previous
boundary is at least its account seq, the new boundary between current and
future equals that recorded removed sequence itself. -/
theorem claim_C3_remove_boundary (p : MemPool) (hashes : List TxHash)
    (fetch_seq : Public → Nat) (bn ts : Nat) (s : Public) (r : Nat)
    (hkeys : (p.remove_phase1 hashes fetch_seq).1.by_signer_public.keys.Nodup)
    (hmem : s ∈ (p.remove_phase1 hashes fetch_seq).1.by_signer_public.keys)
    (hr : alGet (p.remove_phase1 hashes fetch_seq).2 s = some r)
    (hbn : p.last_block_number ≤ bn) (hts : p.last_timestamp ≤ ts)
    (hfirst : (alGet p.first_seqs s).getD 0 ≤ fetch_seq s)
    (hnext : fetch_seq s ≤ (alGet p.next_seqs s).getD (fetch_seq s)) :
    (p.remove hashes fetch_seq bn ts).boundary s = r := by
  have hph := remove_phase1_seq_maps p hashes fetch_seq
  have hge : fetch_seq s ≤ r := by
    rw [MemPool.remove_phase1] at hr
    refine remove_phase1_removed_ge fetch_seq hashes (p, []) s r ?_ hr
    intro r' h
    simp [alGet] at h
  rw [MemPool.remove]
  refine (boundary_congr s rfl rfl).trans ?_
  refine fold_reconcile_boundary fetch_seq bn ts
    (p.remove_phase1 hashes fetch_seq).2 s r
    (p.remove_phase1 hashes fetch_seq).1.by_signer_public.keys
    (p.remove_phase1 hashes fetch_seq).1 hkeys hmem ?_ ?_ ?_ ?_ hr hge
  · rw [hph.2.2.1]; exact hbn
  · rw [hph.2.2.2]; exact hts
  · rw [hph.1]; exact hfirst
  · rw [hph.2.1]; exact hnext

/-- Witness for C3: removing the seq-1 and seq-3 entries of `pool_rm`
records removed seq 1 for signer 0, and the boundary after `remove` is 1. -/
theorem claim_C3_remove_boundary_witness :
    alGet (pool_rm.remove_phase1 [2, 4] (fun _ => 0)).2 0 = some 1
      ∧ (pool_rm.remove [2, 4] (fun _ => 0) 2 200).boundary 0 = 1 :=
  ⟨by decide,
    claim_C3_remove_boundary pool_rm [2, 4] (fun _ => 0) 2 200 0 1 (by decide)
      (by decide) (by decide) (by decide) (by decide) (by decide) (by decide)⟩

/-- Witness for C7: a Local transaction over an existing slot is not
rejected with `TooCheapToReplace`. -/
theorem claim_C7_too_cheap_to_replace_witness :
    pool_ext.verify_transaction (mkTx 0 5 10 0 9 10) .Local ⟨1000000, 0⟩
      ≠ some .tooCheapToReplace :=
  (claim_C7_too_cheap_to_replace pool_ext (mkTx 0 5 10 0 9 10) .Local
    ⟨1000000, 0⟩).2 rfl

/-- Witness for C9: the returned transactions are the take-prefix of the
range-filtered current items under the 45-byte budget. -/
theorem claim_C9_top_transactions_witness :
    (pool_rm.top_transactions 45 0 1000).1
      = ((pool_rm.pending_items_in_range 0 1000).take
          (pool_rm.top_transactions 45 0 1000).1.length).map (fun t => t.tx) :=
  (claim_C9_top_transactions pool_rm 45 0 1000).1

end MemPoolModel
